import Mathlib

set_option maxRecDepth 4000

/-!
Shallow embedding of the Baedeker binary front end
(`crates/baedeker-core/src/binary/{leb128,section,module}.rs` and
`crates/baedeker-core/src/error.rs`) together with proofs of the stated
properties of the LEB128 codec, the cursor, the preamble validator, the
section scanner and the module assembler.

Bytes are modelled as `Nat` (a real input has every byte `< 256`; statements
add that hypothesis where it matters).  Machine integers are modelled as
`Nat` bit patterns reduced `% 2^width` exactly where the Rust code's
fixed-width arithmetic truncates, and signed results are read back as `Int`
by two's-complement interpretation.
-/

namespace Baedeker

/-- `error.rs DecodeContext` (the `ByteOffset` newtype is inlined as `Nat`). -/
inductive DecodeContext where
  | Magic
  | Version
  | SectionHeader
  | SectionBody (id : Nat)
  | Leb128
  | TypeSection
deriving DecidableEq, Repr

/-- `error.rs DecodeErrorKind`. -/
inductive DecodeErrorKind where
  | UnexpectedEof
  | InvalidMagic
  | UnsupportedVersion (found : Nat)
  | Leb128TooLong
  | Leb128Overflow
  | UnknownSectionId (id : Nat)
  | SectionOverflow
  | SectionOutOfOrder (prev current : Nat)
  | DuplicateSection (id : Nat)
  | UnknownValType (byte : Nat)
  | UnexpectedByte (expected found : Nat)
  | SectionSizeMismatch (expected consumed : Nat)
deriving DecidableEq, Repr

/-- `error.rs DecodeError`. -/
structure DecodeError where
  offset : Nat
  context : DecodeContext
  kind : DecodeErrorKind
deriving DecidableEq, Repr

/-- `leb128.rs Cursor`: a byte slice plus a read position. -/
structure Cursor where
  data : List Nat
  pos : Nat
deriving DecidableEq, Repr

namespace Cursor

/-- `Cursor::new`. -/
def new (data : List Nat) : Cursor := ⟨data, 0⟩

/-- `Cursor::remaining`. -/
def remaining (c : Cursor) : List Nat := c.data.drop c.pos

/-- `Cursor::is_empty`. -/
def is_empty (c : Cursor) : Bool := c.data.length ≤ c.pos

/-- `Cursor::read_byte`.  The Rust method takes `&mut self`; the model
returns the (possibly advanced) cursor next to the result. -/
def read_byte (c : Cursor) : Except DecodeError Nat × Cursor :=
  if h : c.pos < c.data.length then
    (.ok (c.data.get ⟨c.pos, h⟩), ⟨c.data, c.pos + 1⟩)
  else
    (.error ⟨c.pos, .Leb128, .UnexpectedEof⟩, c)

/-- `Cursor::read_bytes`. -/
def read_bytes (c : Cursor) (n : Nat) : Except DecodeError (List Nat) × Cursor :=
  if c.pos + n ≤ c.data.length then
    (.ok ((c.data.drop c.pos).take n), ⟨c.data, c.pos + n⟩)
  else
    (.error ⟨c.pos, .Leb128, .UnexpectedEof⟩, c)

/-- `Cursor::advance`. -/
def advance (c : Cursor) (n : Nat) : Except DecodeError Unit × Cursor :=
  if c.pos + n ≤ c.data.length then
    (.ok (), ⟨c.data, c.pos + n⟩)
  else
    (.error ⟨c.pos, .Leb128, .UnexpectedEof⟩, c)

end Cursor

/-- Two's-complement interpretation of a `width`-bit pattern, as the Rust
return types `i32`/`i64` interpret the accumulated bits. -/
def toSigned (width n : Nat) : Int :=
  if n < 2 ^ (width - 1) then (n : Int) else (n : Int) - 2 ^ width

/-- The shared loop of `decode_u32` / `decode_u64` (`leb128.rs`), with the
target width and the final-byte unused-bits mask as parameters
(`width = 32, lastMask = 0xF0` and `width = 64, lastMask = 0xFE`).
`fuel` counts the iterations that remain, so the Rust index test `i == 4`
(resp. `i == 9`) is `fuel = 0` after the pattern match.  The accumulator
masks each `low_bits << shift` by `2 ^ width` exactly as the fixed-width
`|=` does. -/
def decodeULoop (width lastMask start : Nat) :
    Nat → Nat → Nat → Cursor → Except DecodeError Nat × Cursor
  | 0, _, _, c => (.error ⟨start, .Leb128, .Leb128TooLong⟩, c)
  | fuel + 1, result, shift, c =>
    match Cursor.read_byte c with
    | (.error e, c') => (.error { e with context := .Leb128, offset := start }, c')
    | (.ok byte, c') =>
      if fuel = 0 ∧ byte &&& lastMask ≠ 0 then
        (.error ⟨start, .Leb128, .Leb128Overflow⟩, c')
      else
        let result := result ||| (((byte &&& 0x7F) <<< shift) % 2 ^ width)
        if byte &&& 0x80 = 0 then
          (.ok result, c')
        else
          decodeULoop width lastMask start fuel result (shift + 7) c'

/-- `leb128.rs decode_u32`. -/
def decode_u32 (c : Cursor) : Except DecodeError Nat × Cursor :=
  decodeULoop 32 0xF0 c.pos 5 0 0 c

/-- `leb128.rs decode_u64`. -/
def decode_u64 (c : Cursor) : Except DecodeError Nat × Cursor :=
  decodeULoop 64 0xFE c.pos 10 0 0 c

/-- The shared loop of `decode_i32` / `decode_i64` (`leb128.rs`), with the
target width and the final-byte sign-and-unused-bits mask as parameters
(`width = 32, signMask = 0x70` and `width = 64, signMask = 0x7E`).
The Rust `result |= !0 << shift` fills the bits from `shift` up with ones,
which on the `Nat` bit pattern is `||| (2 ^ width - 2 ^ shift)`. -/
def decodeSLoop (width signMask start : Nat) :
    Nat → Nat → Nat → Cursor → Except DecodeError Int × Cursor
  | 0, _, _, c => (.error ⟨start, .Leb128, .Leb128TooLong⟩, c)
  | fuel + 1, result, shift, c =>
    match Cursor.read_byte c with
    | (.error e, c') => (.error { e with context := .Leb128, offset := start }, c')
    | (.ok byte, c') =>
      let result := result ||| (((byte &&& 0x7F) <<< shift) % 2 ^ width)
      let shift := shift + 7
      if byte &&& 0x80 = 0 then
        if fuel = 0 then
          let signAndUnused := byte &&& signMask
          if signAndUnused ≠ 0 ∧ signAndUnused ≠ signMask then
            (.error ⟨start, .Leb128, .Leb128Overflow⟩, c')
          else
            (.ok (toSigned width result), c')
        else
          let result :=
            if shift < width ∧ byte &&& 0x40 ≠ 0 then
              result ||| (2 ^ width - 2 ^ shift)
            else result
          (.ok (toSigned width result), c')
      else
        decodeSLoop width signMask start fuel result shift c'

/-- `leb128.rs decode_i32`. -/
def decode_i32 (c : Cursor) : Except DecodeError Int × Cursor :=
  decodeSLoop 32 0x70 c.pos 5 0 0 c

/-- `leb128.rs decode_i64`. -/
def decode_i64 (c : Cursor) : Except DecodeError Int × Cursor :=
  decodeSLoop 64 0x7E c.pos 10 0 0 c

/-- `section.rs SectionId`. -/
inductive SectionId where
  | custom
  | type'
  | import'
  | function'
  | table'
  | memory'
  | global'
  | export'
  | start'
  | element'
  | code'
  | data'
  | dataCount
deriving DecidableEq, Repr

namespace SectionId

/-- `SectionId::from_byte`. -/
def from_byte (byte : Nat) : Option SectionId :=
  match byte with
  | 0 => some .custom
  | 1 => some .type'
  | 2 => some .import'
  | 3 => some .function'
  | 4 => some .table'
  | 5 => some .memory'
  | 6 => some .global'
  | 7 => some .export'
  | 8 => some .start'
  | 9 => some .element'
  | 10 => some .code'
  | 11 => some .data'
  | 12 => some .dataCount
  | _ => none

end SectionId

/-- `section.rs RawSection`. -/
structure RawSection where
  id : SectionId
  offset : Nat
  data : List Nat
deriving DecidableEq, Repr

/-- `section.rs WASM_MAGIC`. -/
def WASM_MAGIC : List Nat := [0x00, 0x61, 0x73, 0x6D]

/-- `section.rs WASM_VERSION`. -/
def WASM_VERSION : List Nat := [0x01, 0x00, 0x00, 0x00]

/-- `u32::from_le_bytes` on a 4-byte slice of `u8` values. -/
def le32 (bytes : List Nat) : Nat :=
  match bytes with
  | [b0, b1, b2, b3] => b0 + 0x100 * b1 + 0x10000 * b2 + 0x1000000 * b3
  | _ => 0

/-- `section.rs parse_preamble`. -/
def parse_preamble (c : Cursor) : Except DecodeError Unit × Cursor :=
  match Cursor.read_bytes c 4 with
  | (.error _, c1) => (.error ⟨0, .Magic, .UnexpectedEof⟩, c1)
  | (.ok magic, c1) =>
    if magic ≠ WASM_MAGIC then
      (.error ⟨0, .Magic, .InvalidMagic⟩, c1)
    else
      match Cursor.read_bytes c1 4 with
      | (.error _, c2) => (.error ⟨4, .Version, .UnexpectedEof⟩, c2)
      | (.ok version, c2) =>
        if version ≠ WASM_VERSION then
          (.error ⟨4, .Version, .UnsupportedVersion (le32 version)⟩, c2)
        else
          (.ok (), c2)

/-- The `while !cursor.is_empty()` loop of `section.rs parse_sections`,
with explicit fuel (each iteration consumes at least one byte, so
`parse_sections` passes fuel that can never run out).  `last` is the Rust
`last_non_custom_id`, `acc` the sections pushed so far, in file order.
The Rust `id_byte <= prev` branch is split into its `==`/`<` sub-cases
verbatim. -/
def parseSectionsLoop :
    Nat → Option Nat → List RawSection → Cursor →
    Except DecodeError (List RawSection) × Cursor
  | 0, _, _, c => (.error ⟨c.pos, .SectionHeader, .UnexpectedEof⟩, c)
  | fuel + 1, last, acc, c =>
    if c.is_empty then
      (.ok acc, c)
    else
      let idOffset := c.pos
      match Cursor.read_byte c with
      | (.error _, c1) => (.error ⟨idOffset, .SectionHeader, .UnexpectedEof⟩, c1)
      | (.ok idByte, c1) =>
        match SectionId.from_byte idByte with
        | none => (.error ⟨idOffset, .SectionHeader, .UnknownSectionId idByte⟩, c1)
        | some id =>
          match decode_u32 c1 with
          | (.error e, c2) => (.error { e with context := .SectionHeader }, c2)
          | (.ok size, c2) =>
            let contentOffset := c2.pos
            if contentOffset + size > c2.pos + c2.remaining.length then
              (.error ⟨idOffset, .SectionHeader, .SectionOverflow⟩, c2)
            else
              let ordError : Option DecodeError :=
                if id = SectionId.custom then none
                else
                  match last with
                  | some prev =>
                    if idByte = prev then
                      some ⟨idOffset, .SectionHeader, .DuplicateSection idByte⟩
                    else if idByte < prev then
                      some ⟨idOffset, .SectionHeader, .SectionOutOfOrder prev idByte⟩
                    else none
                  | none => none
              match ordError with
              | some e => (.error e, c2)
              | none =>
                let last' := if id = SectionId.custom then last else some idByte
                match Cursor.read_bytes c2 size with
                | (.error _, c3) =>
                  (.error ⟨contentOffset, .SectionBody idByte, .SectionOverflow⟩, c3)
                | (.ok body, c3) =>
                  parseSectionsLoop fuel last' (acc ++ [⟨id, contentOffset, body⟩]) c3

/-- `section.rs parse_sections`. -/
def parse_sections (c : Cursor) : Except DecodeError (List RawSection) × Cursor :=
  parseSectionsLoop (c.data.length + 1 - c.pos) none [] c

/-- `module.rs Module`. -/
structure Module where
  sections : List RawSection
deriving DecidableEq, Repr

/-- `module.rs Module::decode`. -/
def Module.decode (bytes : List Nat) : Except DecodeError Module :=
  let c := Cursor.new bytes
  match parse_preamble c with
  | (.error e, _) => .error e
  | (.ok _, c1) =>
    match parse_sections c1 with
    | (.error e, _) => .error e
    | (.ok sections, _) => .ok ⟨sections⟩

/-- Modelled from the spec: the canonical unsigned LEB128 encoding of a
value (7 value bits per byte, little-endian groups, continuation flag in
bit 7, minimal length).  The repository has no encoder; this definition is
the spec's characterisation of a "valid canonical unsigned encoding". -/
def encodeU (v : Nat) : List Nat :=
  if v < 0x80 then [v]
  else (v % 0x80 + 0x80) :: encodeU (v / 0x80)

/-- Modelled from the spec: the canonical signed LEB128 encoding of a
value (7 value bits per byte in two's complement, arithmetic shift between
groups, stop as soon as the remaining value is a pure sign extension of
the group's sign bit).  The repository has no encoder; this definition is
the spec's characterisation of a "valid canonical signed encoding". -/
def encodeS (v : Int) : List Nat :=
  if (v / 0x80 = 0 ∧ v % 0x80 < 0x40) ∨ (v / 0x80 = -1 ∧ 0x40 ≤ v % 0x80) then
    [(v % 0x80).toNat]
  else
    ((v % 0x80).toNat + 0x80) :: encodeS (v / 0x80)
termination_by v.natAbs
decreasing_by omega



/-- Modelled from the spec: the binary layout of one section,
`[id: 1 byte][content-length: unsigned LEB128][content]` (spec section 6,
"External Interfaces"); used to characterise well-formed section streams. -/
def sectionBytes (item : Nat × List Nat) : List Nat :=
  item.1 :: (encodeU item.2.length ++ item.2)

/-- Modelled from the spec: a section stream is the concatenation of the
serialised sections. -/
def serializeSections (items : List (Nat × List Nat)) : List Nat :=
  items.foldr (fun item acc => sectionBytes item ++ acc) []

/-- Modelled from the spec: the section-stream validity discipline --- every
id is a known `SectionId`, every declared length fits in `u32`, and the
non-custom ids are strictly increasing relative to the most recently
accepted non-custom id (`last`); custom sections are exempt and do not
update the tracker. -/
def chainOk : Option Nat → List (Nat × List Nat) → Bool
  | _, [] => true
  | last, (id, body) :: rest =>
    (SectionId.from_byte id).isSome &&
    decide (body.length < 2 ^ 32) &&
    (if id = 0 then chainOk last rest
     else
       (match last with
        | some prev => decide (prev < id)
        | none => true) && chainOk (some id) rest)

/-- The `RawSection` values a well-formed section stream starting at byte
offset `pos` decodes to, in file order. -/
def expectedSections : Nat → List (Nat × List Nat) → List RawSection
  | _, [] => []
  | pos, (id, body) :: rest =>
    let contentOffset := pos + 1 + (encodeU body.length).length
    ⟨(SectionId.from_byte id).getD .custom, contentOffset, body⟩ ::
      expectedSections (contentOffset + body.length) rest


/-! ### Arithmetic helper lemmas -/

theorem and_mask (b k m : Nat) : b &&& ((2 ^ m - 1) <<< k) = b / 2 ^ k % 2 ^ m * 2 ^ k := by
  apply Nat.eq_of_testBit_eq
  intro i
  rw [show b / 2 ^ k % 2 ^ m * 2 ^ k = (b >>> k % 2 ^ m) <<< k by
    rw [Nat.shiftLeft_eq, Nat.shiftRight_eq_div_pow]]
  simp only [Nat.testBit_and, Nat.testBit_shiftLeft, Nat.testBit_two_pow_sub_one,
    Nat.testBit_mod_two_pow, Nat.testBit_shiftRight]
  by_cases hk : k ≤ i
  · have h2 : k + (i - k) = i := by omega
    simp [show i ≥ k from hk, h2, Bool.and_comm]
  · simp [show ¬ i ≥ k from hk]

theorem and_0x7F (b : Nat) : b &&& 0x7F = b % 0x80 :=
  Nat.and_pow_two_sub_one_eq_mod b 7
theorem and_0x80 (b : Nat) : b &&& 0x80 = b / 0x80 % 2 * 0x80 := and_mask b 7 1

theorem and_0xF0 (b : Nat) : b &&& 0xF0 = b / 0x10 % 0x10 * 0x10 := and_mask b 4 4

theorem and_0x70 (b : Nat) : b &&& 0x70 = b / 0x10 % 8 * 0x10 := and_mask b 4 3

theorem and_0xFE (b : Nat) : b &&& 0xFE = b / 2 % 0x80 * 2 := and_mask b 1 7

theorem and_0x7E (b : Nat) : b &&& 0x7E = b / 2 % 0x40 * 2 := and_mask b 1 6

theorem and_0x40 (b : Nat) : b &&& 0x40 = b / 0x40 % 2 * 0x40 := and_mask b 6 1

theorem lor_shiftLeft_eq_add {a : Nat} {s : Nat} (b : Nat) (h : a < 2 ^ s) :
    a ||| b <<< s = a + b * 2 ^ s := by
  rw [Nat.shiftLeft_eq, Nat.lor_comm, Nat.mul_comm b (2 ^ s), ← Nat.mul_add_lt_is_or h]
  omega

theorem mul_pow_lt {v s w c : Nat} (hv : v < 2 ^ c) (hw : s + c ≤ w) :
    v * 2 ^ s < 2 ^ w := by
  calc v * 2 ^ s < 2 ^ c * 2 ^ s :=
        (Nat.mul_lt_mul_right (Nat.pos_pow_of_pos s (by norm_num))).mpr hv
    _ = 2 ^ (c + s) := (Nat.pow_add 2 c s).symm
    _ ≤ 2 ^ w := Nat.pow_le_pow_right (by norm_num) (by omega)

theorem read_byte_drop {data : List Nat} {pos : Nat} {b : Nat} {l : List Nat}
    (h : data.drop pos = b :: l) :
    Cursor.read_byte ⟨data, pos⟩ = (.ok b, ⟨data, pos + 1⟩) ∧ data.drop (pos + 1) = l := by
  have hp : pos < data.length := by
    by_contra hc
    rw [List.drop_eq_nil_of_le (by omega)] at h
    exact List.noConfusion h
  rw [List.drop_eq_getElem_cons hp] at h
  obtain ⟨h1, h2⟩ := List.cons.inj h
  refine ⟨?_, h2⟩
  rw [Cursor.read_byte]
  simp only [hp, dif_pos]
  simp [List.get_eq_getElem, h1]

/-- Main unsigned induction. -/
theorem decodeULoop_encodeU (width r lastMask : Nat) (hr0 : 0 < r) (hr7 : r ≤ 7)
    (hmask : lastMask = (2 ^ (8 - r) - 1) <<< r) :
    ∀ fuel v result shift data pos rest start,
      1 ≤ fuel →
      data.drop pos = encodeU v ++ rest →
      v < 2 ^ (7 * (fuel - 1) + r) →
      result < 2 ^ shift →
      shift + 7 * (fuel - 1) + r ≤ width →
      decodeULoop width lastMask start fuel result shift ⟨data, pos⟩ =
        (.ok (result + v * 2 ^ shift), ⟨data, pos + (encodeU v).length⟩) := by
  intro fuel
  induction fuel with
  | zero => intro v result shift data pos rest start h1; omega
  | succ fuel ih =>
    intro v result shift data pos rest start _ hdrop hv hres hw
    simp only [Nat.add_sub_cancel] at hv hw
    rw [encodeU] at hdrop ⊢
    by_cases hv128 : v < 0x80
    · -- terminal byte
      rw [if_pos hv128] at hdrop ⊢
      simp only [List.cons_append, List.nil_append] at hdrop
      obtain ⟨hrb, -⟩ := read_byte_drop hdrop
      rw [decodeULoop, hrb]
      dsimp only
      have hcheck : ¬ (fuel = 0 ∧ v &&& lastMask ≠ 0) := by
        rintro ⟨hf0, hne⟩
        subst hf0
        apply hne
        rw [hmask, and_mask]
        have hv0 : v / 2 ^ r = 0 := by
          apply Nat.div_eq_of_lt
          simpa using hv
        simp [hv0]
      rw [if_neg hcheck]
      have hvlt : v < 2 ^ (min 7 (7 * fuel + r)) := by
        rcases Nat.le_total 7 (7 * fuel + r) with h | h
        · rw [Nat.min_eq_left h]; omega
        · rw [Nat.min_eq_right h]; exact hv
      have hmod : ((v &&& 0x7F) <<< shift) % 2 ^ width = v <<< shift := by
        rw [and_0x7F, Nat.mod_eq_of_lt hv128, Nat.shiftLeft_eq, Nat.mod_eq_of_lt]
        exact mul_pow_lt hvlt (by omega)
      rw [hmod, lor_shiftLeft_eq_add v hres]
      have hterm : v &&& 0x80 = 0 := by
        rw [and_0x80, Nat.div_eq_of_lt hv128]
      rw [if_pos hterm]
      simp [Nat.shiftLeft_eq]
    · -- continuation byte
      rw [if_neg hv128] at hdrop ⊢
      simp only [List.cons_append] at hdrop
      obtain ⟨hrb, hdrop'⟩ := read_byte_drop hdrop
      rw [decodeULoop, hrb]
      dsimp only
      have hfuel : fuel ≠ 0 := by
        rintro rfl
        simp only [Nat.mul_zero, Nat.zero_add] at hv
        have : (2:Nat) ^ r ≤ 2 ^ 7 := Nat.pow_le_pow_right (by norm_num) hr7
        omega
      rw [if_neg (by rintro ⟨hf0, -⟩; exact hfuel hf0)]
      have hb7F : (v % 0x80 + 0x80) &&& 0x7F = v % 0x80 := by
        rw [and_0x7F]
        omega
      have hb80 : (v % 0x80 + 0x80) &&& 0x80 ≠ 0 := by
        rw [and_0x80]
        have h1 : (v % 0x80 + 0x80) / 0x80 = 1 := by omega
        simp [h1]
      have hmod : ((v % 0x80) <<< shift) % 2 ^ width = (v % 0x80) <<< shift := by
        rw [Nat.shiftLeft_eq]
        exact Nat.mod_eq_of_lt (mul_pow_lt (show v % 0x80 < 2 ^ 7 by omega) (by omega))
      rw [hb7F, hmod, lor_shiftLeft_eq_add _ hres, if_neg hb80]
      have hpow7 : (2:Nat) ^ (shift + 7) = 2 ^ shift * 128 := by
        rw [Nat.pow_add]
      have hres' : result + v % 0x80 * 2 ^ shift < 2 ^ (shift + 7) := by
        have h2 : v % 0x80 * 2 ^ shift ≤ 127 * 2 ^ shift :=
          Nat.mul_le_mul_right (2 ^ shift) (show v % 0x80 ≤ 127 by omega)
        omega
      have hdiv : v / 0x80 < 2 ^ (7 * (fuel - 1) + r) := by
        rw [Nat.div_lt_iff_lt_mul (by norm_num)]
        calc v < 2 ^ (7 * fuel + r) := hv
          _ = 2 ^ (7 * (fuel - 1) + r) * 0x80 := by
            rw [show 7 * fuel + r = 7 * (fuel - 1) + r + 7 by omega, Nat.pow_add]
      have hIH := ih (v / 0x80) (result + v % 0x80 * 2 ^ shift) (shift + 7) data (pos + 1)
        rest start (by omega) (by simpa using hdrop') hdiv hres' (by omega)
      rw [hIH]
      have harith : result + v % 0x80 * 2 ^ shift + v / 0x80 * 2 ^ (shift + 7)
          = result + v * 2 ^ shift := by
        calc result + v % 0x80 * 2 ^ shift + v / 0x80 * 2 ^ (shift + 7)
            = result + (v % 0x80 + 0x80 * (v / 0x80)) * 2 ^ shift := by
              rw [hpow7]; ring
          _ = result + v * 2 ^ shift := by rw [Nat.mod_add_div]
      have hlen : pos + 1 + (encodeU (v / 0x80)).length
          = pos + ((encodeU (v / 0x80)).length + 1) := by omega
      rw [harith, hlen]
      simp

/-- Splitting an Euclidean remainder by a factored modulus. -/
theorem emod_mul_split (v K : Int) (hK : 0 < K) :
    v % (128 * K) = 128 * ((v / 128) % K) + v % 128 := by
  have h1 : (128:Int) * (v / 128) + v % 128 = v := Int.ediv_add_emod v 128
  have h2 : K * (v / 128 / K) + (v / 128) % K = v / 128 := Int.ediv_add_emod (v / 128) K
  have hr0 : 0 ≤ v % 128 := Int.emod_nonneg v (by norm_num)
  have hr1 : v % 128 < 128 := Int.emod_lt_of_pos v (by norm_num)
  have hs0 : 0 ≤ (v / 128) % K := Int.emod_nonneg _ (by omega)
  have hs1 : (v / 128) % K < K := Int.emod_lt_of_pos _ hK
  have hdvd : (128 * K) ∣ (v - (128 * ((v / 128) % K) + v % 128)) := by
    refine ⟨v / 128 / K, ?_⟩
    have : v - (128 * ((v / 128) % K) + v % 128) = 128 * (v / 128 - (v / 128) % K) := by
      linarith
    rw [this, show v / 128 - (v / 128) % K = K * (v / 128 / K) by linarith]
    ring
  have heq : v % (128 * K) = (128 * ((v / 128) % K) + v % 128) % (128 * K) := by
    rw [Int.emod_eq_emod_iff_emod_sub_eq_zero]
    exact Int.emod_eq_zero_of_dvd hdvd
  rw [heq, Int.emod_eq_of_lt (by positivity) (by nlinarith)]

/-- Reading back a reduced two's-complement pattern recovers the value. -/
theorem toSigned_emod {width : Nat} (v : Int) (hw : 1 ≤ width)
    (h1 : -(2 ^ (width - 1)) ≤ v) (h2 : v < 2 ^ (width - 1)) :
    toSigned width ((v % (2 ^ width : Nat)).toNat) = v := by
  obtain ⟨w, rfl⟩ : ∃ w, width = w + 1 := ⟨width - 1, by omega⟩
  simp only [Nat.add_sub_cancel] at h1 h2
  have hcast : ((2 ^ (w + 1) : Nat) : Int) = 2 * (2 : Int) ^ w := by
    push_cast [pow_succ]
    ring
  have hcast2 : ((2 ^ w : Nat) : Int) = (2 : Int) ^ w := by push_cast; rfl
  have hcast3 : (2 : Int) ^ (w + 1) = 2 * (2 : Int) ^ w := by ring
  have hpos : (0:Int) < (2:Int) ^ w := by positivity
  rcases le_or_lt 0 v with hv | hv
  · have he : v % ((2 ^ (w + 1) : Nat) : Int) = v := Int.emod_eq_of_lt hv (by omega)
    rw [toSigned, he]
    simp only [Nat.add_sub_cancel]
    split
    · omega
    · omega
  · have hlow : (0:Int) ≤ v + ((2 ^ (w + 1) : Nat) : Int) := by omega
    have he : v % ((2 ^ (w + 1) : Nat) : Int) = v + ((2 ^ (w + 1) : Nat) : Int) := by
      rw [show v % ((2 ^ (w + 1) : Nat) : Int)
            = (v + ((2 ^ (w + 1) : Nat) : Int) * 1) % ((2 ^ (w + 1) : Nat) : Int) by
          rw [Int.add_mul_emod_self_left]]
      rw [mul_one, Int.emod_eq_of_lt hlow (by omega)]
    rw [toSigned, he]
    simp only [Nat.add_sub_cancel]
    split
    · omega
    · omega


/-- Main signed induction: decoding a canonical signed encoding from any
cursor position accumulates the two's-complement pattern of the encoded
value at the current shift. -/
theorem decodeSLoop_encodeS (width r signMask : Nat) (hr0 : 0 < r) (hr7 : r ≤ 7)
    (hmask : signMask = (2 ^ (7 - r) - 1) <<< r) :
    ∀ fuel (v : Int) result shift data pos rest start,
      1 ≤ fuel →
      data.drop pos = encodeS v ++ rest →
      -((2 : Int) ^ (7 * (fuel - 1) + r - 1)) ≤ v →
      v < (2 : Int) ^ (7 * (fuel - 1) + r - 1) →
      result < 2 ^ shift →
      shift + (7 * (fuel - 1) + r) = width →
      decodeSLoop width signMask start fuel result shift ⟨data, pos⟩ =
        (.ok (toSigned width
          (result + (v % ((2 ^ (width - shift) : Nat) : Int)).toNat * 2 ^ shift)),
         ⟨data, pos + (encodeS v).length⟩) := by
  intro fuel
  induction fuel with
  | zero => intro v result shift data pos rest start h1; omega
  | succ fuel ih =>
    intro v result shift data pos rest start _ hdrop hlo hhi hres hsw
    simp only [Nat.add_sub_cancel] at hlo hhi hsw
    have he0 : (0:Int) ≤ v % 128 := Int.emod_nonneg v (by norm_num)
    have he1 : v % 128 < 128 := Int.emod_lt_of_pos v (by norm_num)
    have hde : (128:Int) * (v / 128) + v % 128 = v := Int.ediv_add_emod v 128
    rw [encodeS] at hdrop ⊢
    by_cases hstop : (v / 0x80 = 0 ∧ v % 0x80 < 0x40) ∨ (v / 0x80 = -1 ∧ 0x40 ≤ v % 0x80)
    · -- terminal byte
      rw [if_pos hstop] at hdrop ⊢
      simp only [List.cons_append, List.nil_append] at hdrop
      obtain ⟨hrb, -⟩ := read_byte_drop hdrop
      rw [decodeSLoop, hrb]
      dsimp only
      have hblt : (v % 0x80).toNat < 128 := by omega
      have hb7F : (v % 0x80).toNat &&& 0x7F = (v % 0x80).toNat := by
        rw [and_0x7F]; omega
      have hb80 : (v % 0x80).toNat &&& 0x80 = 0 := by
        rw [and_0x80]
        have h0 : (v % 0x80).toNat / 0x80 = 0 := by omega
        simp [h0]
      rw [hb7F]
      by_cases hf : fuel = 0
      · -- last allowed byte: shift + r = width
        subst hf
        simp only [Nat.mul_zero, Nat.zero_add] at hlo hhi hsw
        have hwr : width - shift = r := by omega
        have hrpow : (2:Nat) ^ (7 - r) * 2 ^ r = 128 := by
          rw [← Nat.pow_add, show 7 - r + r = 7 by omega]
        have h2r_le : (2:Nat) ^ (r - 1) ≤ 2 ^ r :=
          Nat.pow_le_pow_right (by norm_num) (by omega)
        have hcast_r : (((2 ^ r : Nat)) : Int) = (2:Int) ^ r := by push_cast; rfl
        have hcast_r1 : (((2 ^ (r - 1) : Nat)) : Int) = (2:Int) ^ (r - 1) := by
          push_cast; rfl
        have hpow_r_split : (2:Int) ^ r = 2 * (2:Int) ^ (r - 1) := by
          conv_lhs => rw [show r = (r - 1) + 1 by omega]
          rw [pow_succ]
          ring
        have hpowrs : (2:Nat) ^ width = 2 ^ r * 2 ^ shift := by
          rw [← Nat.pow_add]
          congr 1
          omega
        have hmod : ((v % 0x80).toNat <<< shift) % 2 ^ width
            = ((v % 0x80).toNat % 2 ^ r) <<< shift := by
          rw [Nat.shiftLeft_eq, Nat.shiftLeft_eq, hpowrs, Nat.mul_mod_mul_right]
        rw [hmod, lor_shiftLeft_eq_add _ hres, if_pos hb80, if_pos rfl]
        have hvmod_r : v % ((2 ^ r : Nat) : Int) = v % ((2 ^ r : Nat) : Int) := rfl
        rcases hstop with ⟨hq, hlt⟩ | ⟨hq, hge⟩
        · -- nonnegative value: v = v % 128 < 64
          have hveq : v = v % 0x80 := by omega
          have hbr : (v % 0x80).toNat < 2 ^ r := by
            have h1 : v % 0x80 < (2:Int) ^ (r - 1) := by omega
            have h2 : ((2 ^ r : Nat) : Int) = 2 * (2:Int) ^ (r - 1) := by
              rw [hcast_r, hpow_r_split]
            omega
          have hdiv0 : (v % 0x80).toNat / 2 ^ r = 0 := Nat.div_eq_of_lt hbr
          have hsign : (v % 0x80).toNat &&& signMask = 0 := by
            rw [hmask, and_mask, hdiv0]
            simp
          rw [if_neg (by rw [hsign]; simp)]
          have hvm : v % ((2 ^ r : Nat) : Int) = v := by
            apply Int.emod_eq_of_lt (by omega)
            have h2 : ((2 ^ r : Nat) : Int) = 2 * (2:Int) ^ (r - 1) := by
              rw [hcast_r, hpow_r_split]
            omega
          have hkey : (v % 0x80).toNat % 2 ^ r = (v % ((2 ^ r : Nat) : Int)).toNat := by
            rw [Nat.mod_eq_of_lt hbr, hvm]
            omega
          rw [hwr, ← hkey]
          simp
        · -- negative value: v % 128 ≥ 64, v = v % 128 - 128
          have hveq : v = v % 0x80 - 128 := by omega
          have hblo : (128:Nat) - 2 ^ (r - 1) ≤ (v % 0x80).toNat := by
            have h1 : -((2:Int) ^ (r - 1)) ≤ v := hlo
            have h2 : ((2 ^ (r - 1) : Nat) : Int) = (2:Int) ^ (r - 1) := hcast_r1
            omega
          have hpos_r : 0 < (2:Nat) ^ r := Nat.pos_pow_of_pos r (by norm_num)
          have hlb : (2 ^ (7 - r) - 1) * 2 ^ r ≤ (v % 0x80).toNat := by
            have h1 : (2 ^ (7 - r) - 1) * 2 ^ r = 128 - 2 ^ r := by
              rw [Nat.sub_mul, hrpow, Nat.one_mul]
            omega
          have hub : (v % 0x80).toNat < 2 ^ (7 - r) * 2 ^ r := by
            rw [hrpow]; omega
          have hdivr : (v % 0x80).toNat / 2 ^ r = 2 ^ (7 - r) - 1 := by
            have h5 : (v % 0x80).toNat / 2 ^ r < 2 ^ (7 - r) := by
              rw [Nat.div_lt_iff_lt_mul hpos_r]; exact hub
            have h6 : 2 ^ (7 - r) - 1 ≤ (v % 0x80).toNat / 2 ^ r := by
              rw [Nat.le_div_iff_mul_le hpos_r]; exact hlb
            omega
          have hsign : (v % 0x80).toNat &&& signMask = signMask := by
            have hp7r : 0 < (2:Nat) ^ (7 - r) := Nat.pos_pow_of_pos (7 - r) (by norm_num)
            rw [hmask, and_mask, hdivr, Nat.mod_eq_of_lt (by omega), Nat.shiftLeft_eq]
          rw [if_neg (by rw [hsign]; simp)]
          have hdvd : ((2 ^ r : Nat) : Int) ∣ 128 := by
            refine ⟨((2 ^ (7 - r) : Nat) : Int), ?_⟩
            push_cast
            exact_mod_cast (by rw [Nat.mul_comm]; exact hrpow.symm : (128:Nat) = 2 ^ r * 2 ^ (7 - r))
          have hvm : v % ((2 ^ r : Nat) : Int) = v + ((2 ^ r : Nat) : Int) := by
            rw [show v % ((2 ^ r : Nat) : Int)
                  = (v + ((2 ^ r : Nat) : Int) * 1) % ((2 ^ r : Nat) : Int) by
                rw [Int.add_mul_emod_self_left]]
            rw [mul_one]
            apply Int.emod_eq_of_lt (by omega) (by omega)
          have hkey : (v % 0x80).toNat % 2 ^ r = (v % ((2 ^ r : Nat) : Int)).toNat := by
            have hc1 : (((v % 0x80).toNat % 2 ^ r : Nat) : Int)
                = (v % 128) % ((2 ^ r : Nat) : Int) := by
              push_cast [Int.toNat_of_nonneg he0]
              rfl
            have hc2 : (v % 128) % ((2 ^ r : Nat) : Int) = v % ((2 ^ r : Nat) : Int) :=
              Int.emod_emod_of_dvd v hdvd
            omega
          rw [hwr, ← hkey]
          simp
      · -- not the last byte: early terminal, possible sign extension
        have hw7 : shift + 7 < width := by omega
        have hmod : ((v % 0x80).toNat <<< shift) % 2 ^ width = (v % 0x80).toNat <<< shift := by
          rw [Nat.shiftLeft_eq]
          exact Nat.mod_eq_of_lt (mul_pow_lt (show (v % 0x80).toNat < 2 ^ 7 by omega) (by omega))
        rw [hmod, lor_shiftLeft_eq_add _ hres, if_pos hb80, if_neg hf]
        have hws : 8 ≤ width - shift := by omega
        have hQpow : (2:Nat) ^ (width - shift - 7) * 2 ^ (shift + 7) = 2 ^ width := by
          rw [← Nat.pow_add]
          congr 1
          omega
        have hWS : (2:Nat) ^ (width - shift) = 128 * 2 ^ (width - shift - 7) := by
          rw [show width - shift = 7 + (width - shift - 7) by omega, Nat.pow_add]
          norm_num
        rcases hstop with ⟨hq, hlt⟩ | ⟨hq, hge⟩
        · -- nonnegative: no sign extension
          have hveq : v = v % 0x80 := by omega
          have hb40 : (v % 0x80).toNat &&& 0x40 = 0 := by
            rw [and_0x40]
            have h0 : (v % 0x80).toNat / 0x40 = 0 := by omega
            simp [h0]
          rw [if_neg (by rw [hb40]; simp)]
          have hkey : (v % 0x80).toNat = (v % ((2 ^ (width - shift) : Nat) : Int)).toNat := by
            have hvm : v % ((2 ^ (width - shift) : Nat) : Int) = v := by
              apply Int.emod_eq_of_lt (by omega)
              have : (128:Nat) ≤ 2 ^ (width - shift) := by
                calc (128:Nat) = 2 ^ 7 := by norm_num
                  _ ≤ 2 ^ (width - shift) := Nat.pow_le_pow_right (by norm_num) (by omega)
              omega
            omega
          rw [← hkey]
          simp
        · -- negative: sign-extension fill
          have hveq : v = v % 0x80 - 128 := by omega
          have hb40 : (v % 0x80).toNat &&& 0x40 ≠ 0 := by
            rw [and_0x40]
            have h0 : (v % 0x80).toNat / 0x40 = 1 := by omega
            simp [h0]
          rw [if_pos ⟨hw7, hb40⟩]
          have hfill : (2:Nat) ^ width - 2 ^ (shift + 7)
              = (2 ^ (width - shift - 7) - 1) <<< (shift + 7) := by
            rw [Nat.shiftLeft_eq, Nat.sub_mul, Nat.one_mul, hQpow]
          have hres1 : result + (v % 0x80).toNat * 2 ^ shift < 2 ^ (shift + 7) := by
            have h2 : (v % 0x80).toNat * 2 ^ shift ≤ 127 * 2 ^ shift :=
              Nat.mul_le_mul_right (2 ^ shift) (by omega)
            have h3 : (2:Nat) ^ (shift + 7) = 2 ^ shift * 128 := by
              rw [Nat.pow_add]
            omega
          rw [hfill, lor_shiftLeft_eq_add _ hres1]
          have hT0 : (0:Int) ≤ v + ((2 ^ (width - shift) : Nat) : Int) := by
            have : (128:Nat) ≤ 2 ^ (width - shift) := by
              calc (128:Nat) = 2 ^ 7 := by norm_num
                _ ≤ 2 ^ (width - shift) := Nat.pow_le_pow_right (by norm_num) (by omega)
            omega
          have hvm : v % ((2 ^ (width - shift) : Nat) : Int)
              = v + ((2 ^ (width - shift) : Nat) : Int) := by
            rw [show v % ((2 ^ (width - shift) : Nat) : Int)
                  = (v + ((2 ^ (width - shift) : Nat) : Int) * 1) % ((2 ^ (width - shift) : Nat) : Int) by
                rw [Int.add_mul_emod_self_left]]
            rw [mul_one]
            exact Int.emod_eq_of_lt hT0 (by omega)
          have harith : result + (v % 0x80).toNat * 2 ^ shift
                + (2 ^ (width - shift - 7) - 1) * 2 ^ (shift + 7)
              = result + (v % ((2 ^ (width - shift) : Nat) : Int)).toNat * 2 ^ shift := by
            rw [hvm]
            have h1 : (1:Nat) ≤ 2 ^ (width - shift - 7) := Nat.one_le_two_pow
            have hpow7 : (2:Nat) ^ (shift + 7) = 2 ^ shift * 128 := by
              rw [Nat.pow_add]
            have hTnat : (v + ((2 ^ (width - shift) : Nat) : Int)).toNat
                = (v % 0x80).toNat + 128 * (2 ^ (width - shift - 7) - 1) := by
              omega
            rw [hTnat, hpow7]
            ring
          rw [harith]
          simp
    · -- continuation byte
      rw [if_neg hstop] at hdrop ⊢
      simp only [List.cons_append] at hdrop
      obtain ⟨hrb, hdrop'⟩ := read_byte_drop hdrop
      rw [decodeSLoop, hrb]
      dsimp only
      have hb7F : ((v % 0x80).toNat + 0x80) &&& 0x7F = (v % 0x80).toNat := by
        rw [and_0x7F]
        omega
      have hb80 : ((v % 0x80).toNat + 0x80) &&& 0x80 ≠ 0 := by
        rw [and_0x80]
        have h1 : ((v % 0x80).toNat + 0x80) / 0x80 = 1 := by omega
        simp [h1]
      have hfuel : fuel ≠ 0 := by
        rintro rfl
        simp only [Nat.mul_zero, Nat.zero_add] at hlo hhi
        have hle : (2:Int) ^ (r - 1) ≤ 2 ^ 6 := by
          have := pow_le_pow_right (show (1:Int) ≤ 2 by norm_num) (show r - 1 ≤ 6 by omega)
          simpa using this
        have h64 : (2:Int) ^ 6 = 64 := by norm_num
        apply hstop
        rcases le_or_lt 0 v with hv | hv
        · left
          constructor
          · omega
          · omega
        · right
          constructor
          · omega
          · omega
      have hmod : (((v % 0x80).toNat) <<< shift) % 2 ^ width = ((v % 0x80).toNat) <<< shift := by
        rw [Nat.shiftLeft_eq]
        apply Nat.mod_eq_of_lt
        exact mul_pow_lt (show (v % 0x80).toNat < 2 ^ 7 by omega) (by omega)
      rw [hb7F, hmod, lor_shiftLeft_eq_add _ hres, if_neg hb80]
      have hpow7 : (2:Nat) ^ (shift + 7) = 2 ^ shift * 128 := by
        rw [Nat.pow_add]
      have hres' : result + (v % 0x80).toNat * 2 ^ shift < 2 ^ (shift + 7) := by
        have h2 : (v % 0x80).toNat * 2 ^ shift ≤ 127 * 2 ^ shift :=
          Nat.mul_le_mul_right (2 ^ shift) (by omega)
        omega
      -- bounds for the recursive value
      have hpow_split : (2:Int) ^ (7 * fuel + r - 1) = 2 ^ (7 * (fuel - 1) + r - 1) * 128 := by
        rw [show 7 * fuel + r - 1 = (7 * (fuel - 1) + r - 1) + 7 by omega, pow_add]
        norm_num
      have hdivlo : -((2:Int) ^ (7 * (fuel - 1) + r - 1)) ≤ v / 128 := by
        rw [Int.le_ediv_iff_mul_le (by norm_num : (0:Int) < 128)]
        calc -((2:Int) ^ (7 * (fuel - 1) + r - 1)) * 128
            = -((2:Int) ^ (7 * fuel + r - 1)) := by rw [hpow_split]; ring
          _ ≤ v := hlo
      have hdivhi : v / 128 < (2:Int) ^ (7 * (fuel - 1) + r - 1) := by
        rw [Int.ediv_lt_iff_lt_mul (by norm_num : (0:Int) < 128)]
        calc v < (2:Int) ^ (7 * fuel + r - 1) := hhi
          _ = 2 ^ (7 * (fuel - 1) + r - 1) * 128 := hpow_split
      have hIH := ih (v / 128) (result + (v % 0x80).toNat * 2 ^ shift) (shift + 7) data
        (pos + 1) rest start (by omega) (by simpa using hdrop') hdivlo hdivhi hres' (by omega)
      rw [hIH]
      -- combine the accumulated byte with the recursively decoded value
      have hKpos : (0:Int) < ((2 ^ (width - (shift + 7)) : Nat) : Int) := by
        have : (1:Nat) ≤ 2 ^ (width - (shift + 7)) := Nat.one_le_two_pow
        omega
      have hsplit := emod_mul_split v ((2 ^ (width - (shift + 7)) : Nat) : Int) hKpos
      have h128K : (128:Int) * ((2 ^ (width - (shift + 7)) : Nat) : Int)
          = ((2 ^ (width - shift) : Nat) : Int) := by
        push_cast
        rw [show width - shift = 7 + (width - (shift + 7)) by omega, pow_add]
        norm_num
      rw [h128K] at hsplit
      have hs0 : (0:Int) ≤ (v / 128) % ((2 ^ (width - (shift + 7)) : Nat) : Int) :=
        Int.emod_nonneg _ (by omega)
      have hkey : (v % ((2 ^ (width - shift) : Nat) : Int)).toNat
          = (v % 0x80).toNat
            + 128 * ((v / 128 % ((2 ^ (width - (shift + 7)) : Nat) : Int)).toNat) := by
        omega
      have harith : result + (v % 0x80).toNat * 2 ^ shift
            + (v / 128 % ((2 ^ (width - (shift + 7)) : Nat) : Int)).toNat * 2 ^ (shift + 7)
          = result + (v % ((2 ^ (width - shift) : Nat) : Int)).toNat * 2 ^ shift := by
        rw [hkey, hpow7]
        ring
      rw [harith]
      simp only [List.length_cons]
      rw [show pos + 1 + (encodeS (v / 128)).length
            = pos + ((encodeS (v / 128)).length + 1) by omega]


/-! ### Canonical round-trip corollaries -/

theorem decode_u32_canonical (v : Nat) (data : List Nat) (pos : Nat) (rest : List Nat)
    (hv : v < 2 ^ 32) (h : data.drop pos = encodeU v ++ rest) :
    decode_u32 ⟨data, pos⟩ = (.ok v, ⟨data, pos + (encodeU v).length⟩) := by
  have hgen := decodeULoop_encodeU 32 4 0xF0 (by norm_num) (by norm_num) (by decide)
    5 v 0 0 data pos rest pos (by norm_num) h hv (by norm_num) (by norm_num)
  simpa [decode_u32] using hgen

theorem decode_u64_canonical (v : Nat) (data : List Nat) (pos : Nat) (rest : List Nat)
    (hv : v < 2 ^ 64) (h : data.drop pos = encodeU v ++ rest) :
    decode_u64 ⟨data, pos⟩ = (.ok v, ⟨data, pos + (encodeU v).length⟩) := by
  have hgen := decodeULoop_encodeU 64 1 0xFE (by norm_num) (by norm_num) (by decide)
    10 v 0 0 data pos rest pos (by norm_num) h hv (by norm_num) (by norm_num)
  simpa [decode_u64] using hgen

theorem decode_i32_canonical (v : Int) (data : List Nat) (pos : Nat) (rest : List Nat)
    (hlo : -(2 ^ 31) ≤ v) (hhi : v < 2 ^ 31) (h : data.drop pos = encodeS v ++ rest) :
    decode_i32 ⟨data, pos⟩ = (.ok v, ⟨data, pos + (encodeS v).length⟩) := by
  have hgen := decodeSLoop_encodeS 32 4 0x70 (by norm_num) (by norm_num) (by decide)
    5 v 0 0 data pos rest pos (by norm_num) h hlo hhi (by norm_num) (by norm_num)
  have hts : toSigned 32 ((v % (4294967296 : Int)).toNat) = v := by
    simpa using @toSigned_emod 32 v (by norm_num) hlo hhi
  rw [decode_i32]
  dsimp only
  rw [hgen]
  simp [hts]

theorem decode_i64_canonical (v : Int) (data : List Nat) (pos : Nat) (rest : List Nat)
    (hlo : -(2 ^ 63) ≤ v) (hhi : v < 2 ^ 63) (h : data.drop pos = encodeS v ++ rest) :
    decode_i64 ⟨data, pos⟩ = (.ok v, ⟨data, pos + (encodeS v).length⟩) := by
  have hgen := decodeSLoop_encodeS 64 1 0x7E (by norm_num) (by norm_num) (by decide)
    10 v 0 0 data pos rest pos (by norm_num) h hlo hhi (by norm_num) (by norm_num)
  have hts : toSigned 64 ((v % (18446744073709551616 : Int)).toNat) = v := by
    simpa using @toSigned_emod 64 v (by norm_num) hlo hhi
  rw [decode_i64]
  dsimp only
  rw [hgen]
  simp [hts]


/-! ### Cursor-shape lemmas for the decode loops -/

/-- `read_byte` either succeeds and advances by one, or fails at the end. -/
theorem read_byte_cases (c : Cursor) :
    (∃ b, Cursor.read_byte c = (.ok b, ⟨c.data, c.pos + 1⟩) ∧ c.pos < c.data.length) ∨
    (Cursor.read_byte c = (.error ⟨c.pos, .Leb128, .UnexpectedEof⟩, c) ∧
      c.data.length ≤ c.pos) := by
  rw [Cursor.read_byte]
  split
  · rename_i h
    exact Or.inl ⟨_, rfl, h⟩
  · rename_i h
    exact Or.inr ⟨rfl, by omega⟩

/-- Data preservation and position bounds for the unsigned decode loop. -/
theorem decodeULoop_cursor (width lastMask start : Nat) :
    ∀ fuel result shift c res c',
      decodeULoop width lastMask start fuel result shift c = (res, c') →
      c'.data = c.data ∧ c.pos ≤ c'.pos ∧
        (c.pos ≤ c.data.length → c'.pos ≤ c.data.length) := by
  intro fuel
  induction fuel with
  | zero =>
    intro result shift c res c' h
    rw [decodeULoop] at h
    cases h
    exact ⟨rfl, Nat.le_refl _, fun h => h⟩
  | succ fuel ih =>
    intro result shift c res c' h
    rcases read_byte_cases c with ⟨b, hrb, hlt⟩ | ⟨hrb, hge⟩ <;>
      rw [decodeULoop, hrb] at h <;> dsimp only at h
    · split at h
      · cases h
        dsimp only
        exact ⟨rfl, by omega, by omega⟩
      · split at h
        · cases h
          dsimp only
          exact ⟨rfl, by omega, by omega⟩
        · have hr := ih _ _ _ _ _ h
          dsimp at hr
          obtain ⟨hr1, hr2, hr3⟩ := hr
          exact ⟨hr1, by omega, by omega⟩
    · cases h
      exact ⟨rfl, Nat.le_refl _, fun h => h⟩

/-- Data preservation and position bounds for the signed decode loop. -/
theorem decodeSLoop_cursor (width signMask start : Nat) :
    ∀ fuel result shift c res c',
      decodeSLoop width signMask start fuel result shift c = (res, c') →
      c'.data = c.data ∧ c.pos ≤ c'.pos ∧
        (c.pos ≤ c.data.length → c'.pos ≤ c.data.length) := by
  intro fuel
  induction fuel with
  | zero =>
    intro result shift c res c' h
    rw [decodeSLoop] at h
    cases h
    exact ⟨rfl, Nat.le_refl _, fun h => h⟩
  | succ fuel ih =>
    intro result shift c res c' h
    rcases read_byte_cases c with ⟨b, hrb, hlt⟩ | ⟨hrb, hge⟩ <;>
      rw [decodeSLoop, hrb] at h <;> dsimp only at h
    · split at h
      · split at h
        · split at h
          · cases h
            dsimp only
            exact ⟨rfl, by omega, by omega⟩
          · cases h
            dsimp only
            exact ⟨rfl, by omega, by omega⟩
        · cases h
          dsimp only
          exact ⟨rfl, by omega, by omega⟩
      · have hr := ih _ _ _ _ _ h
        dsimp at hr
        obtain ⟨hr1, hr2, hr3⟩ := hr
        exact ⟨hr1, by omega, by omega⟩
    · cases h
      exact ⟨rfl, Nat.le_refl _, fun h => h⟩

/-- Skipping `k` continuation bytes in the unsigned loop (with at least one
iteration left afterwards) only grows the accumulator and advances the
cursor; the final-byte check never fires during the skipped bytes. -/
theorem decodeULoop_cont_steps (width lastMask start : Nat) :
    ∀ (k m result shift : Nat) (data : List Nat) (pos : Nat) (bs rest : List Nat),
      1 ≤ m →
      bs.length = k →
      data.drop pos = bs ++ rest →
      (∀ b ∈ bs, b &&& 0x80 ≠ 0) →
      ∃ result',
        decodeULoop width lastMask start (k + m) result shift ⟨data, pos⟩
          = decodeULoop width lastMask start m result' (shift + 7 * k) ⟨data, pos + k⟩ := by
  intro k
  induction k with
  | zero =>
    intro m result shift data pos bs rest _ hlen hdrop _
    exact ⟨result, by simp⟩
  | succ k ih =>
    intro m result shift data pos bs rest hm hlen hdrop hcont
    rcases bs with _ | ⟨b0, bs'⟩
    · simp at hlen
    · simp only [List.cons_append] at hdrop
      obtain ⟨hrb, hdrop'⟩ := read_byte_drop hdrop
      have hb0 : b0 &&& 0x80 ≠ 0 := hcont b0 (by simp)
      rw [show k + 1 + m = (k + m) + 1 by omega, decodeULoop, hrb]
      dsimp only
      rw [if_neg (by rintro ⟨hf0, -⟩; omega)]
      rw [if_neg hb0]
      obtain ⟨result', hstep⟩ := ih m (result ||| (((b0 &&& 0x7F) <<< shift) % 2 ^ width))
        (shift + 7) data (pos + 1) bs' rest hm (by simpa using hlen) hdrop'
        (fun b hb => hcont b (by simp [hb]))
      refine ⟨result', ?_⟩
      rw [hstep]
      congr 1
      · omega
      · simp
        omega

/-- Skipping `k` continuation bytes in the signed loop. -/
theorem decodeSLoop_cont_steps (width signMask start : Nat) :
    ∀ (k m result shift : Nat) (data : List Nat) (pos : Nat) (bs rest : List Nat),
      bs.length = k →
      data.drop pos = bs ++ rest →
      (∀ b ∈ bs, b &&& 0x80 ≠ 0) →
      ∃ result',
        decodeSLoop width signMask start (k + m) result shift ⟨data, pos⟩
          = decodeSLoop width signMask start m result' (shift + 7 * k) ⟨data, pos + k⟩ := by
  intro k
  induction k with
  | zero =>
    intro m result shift data pos bs rest hlen hdrop _
    exact ⟨result, by simp⟩
  | succ k ih =>
    intro m result shift data pos bs rest hlen hdrop hcont
    rcases bs with _ | ⟨b0, bs'⟩
    · simp at hlen
    · simp only [List.cons_append] at hdrop
      obtain ⟨hrb, hdrop'⟩ := read_byte_drop hdrop
      have hb0 : b0 &&& 0x80 ≠ 0 := hcont b0 (by simp)
      rw [show k + 1 + m = (k + m) + 1 by omega, decodeSLoop, hrb]
      dsimp only
      rw [if_neg hb0]
      obtain ⟨result', hstep⟩ := ih m (result ||| (((b0 &&& 0x7F) <<< shift) % 2 ^ width))
        (shift + 7) data (pos + 1) bs' rest (by simpa using hlen) hdrop'
        (fun b hb => hcont b (by simp [hb]))
      refine ⟨result', ?_⟩
      rw [hstep]
      congr 1
      · omega
      · simp
        omega

/-- A byte with the continuation bit also has a bit inside `0xF0`. -/
theorem contBit_in_0xF0 {b : Nat} (h : b &&& 0x80 ≠ 0) : b &&& 0xF0 ≠ 0 := by
  rw [and_0x80] at h
  rw [and_0xF0]
  have h1 : b / 0x80 % 2 = 1 := by omega
  have h2 : b / 0x80 = b / 0x10 / 8 := by
    rw [Nat.div_div_eq_div_mul]
  omega

/-- A byte with the continuation bit also has a bit inside `0xFE`. -/
theorem contBit_in_0xFE {b : Nat} (h : b &&& 0x80 ≠ 0) : b &&& 0xFE ≠ 0 := by
  rw [and_0x80] at h
  rw [and_0xFE]
  have h1 : b / 0x80 % 2 = 1 := by omega
  have h2 : b / 0x80 = b / 2 / 64 := by
    rw [Nat.div_div_eq_div_mul]
  omega

/-! ### Too-long and final-byte behaviour of the LEB128 decoders -/

/-- Dropping further into a suffix equation. -/
theorem drop_add_of_drop {data : List Nat} {pos : Nat} {bs rest : List Nat}
    (h : data.drop pos = bs ++ rest) (k : Nat) (hk : k = bs.length) :
    data.drop (pos + k) = rest := by
  subst hk
  have h2 := congrArg (List.drop bs.length) h
  rw [List.drop_drop, List.drop_left] at h2
  exact h2

/-- Unsigned decoders reject five (resp. ten) leading continuation bytes
with `Leb128Overflow`: the final-byte unused-bits check fires on the
continuation byte before the too-long exit can be reached. -/
theorem decode_u32_all_cont (data : List Nat) (pos : Nat)
    (b0 b1 b2 b3 b4 : Nat) (rest : List Nat)
    (hdrop : data.drop pos = [b0, b1, b2, b3, b4] ++ rest)
    (hcont : ∀ b ∈ [b0, b1, b2, b3, b4], b &&& 0x80 ≠ 0) :
    decode_u32 ⟨data, pos⟩
      = (.error ⟨pos, .Leb128, .Leb128Overflow⟩, ⟨data, pos + 5⟩) := by
  have hdrop4 : data.drop (pos + 4) = b4 :: rest := by
    have := @drop_add_of_drop data pos [b0, b1, b2, b3] (b4 :: rest)
      (by simpa using hdrop) 4 (by simp)
    simpa using this
  obtain ⟨result', hsteps⟩ := decodeULoop_cont_steps 32 0xF0 pos 4 1 0 0 data pos
    [b0, b1, b2, b3] (b4 :: rest) (by norm_num) (by simp)
    (by simpa using hdrop) (by intro b hb; apply hcont; simp at hb; rcases hb with h|h|h|h <;> simp [h])
  norm_num at hsteps
  rw [decode_u32]
  dsimp only
  rw [hsteps]
  obtain ⟨hrb4, -⟩ := read_byte_drop hdrop4
  rw [show (1:Nat) = 0 + 1 from rfl, decodeULoop, hrb4]
  dsimp only
  rw [if_pos ⟨rfl, contBit_in_0xF0 (hcont b4 (by simp))⟩]
theorem decode_u64_all_cont (data : List Nat) (pos : Nat)
    (b0 b1 b2 b3 b4 b5 b6 b7 b8 b9 : Nat) (rest : List Nat)
    (hdrop : data.drop pos = [b0, b1, b2, b3, b4, b5, b6, b7, b8, b9] ++ rest)
    (hcont : ∀ b ∈ [b0, b1, b2, b3, b4, b5, b6, b7, b8, b9], b &&& 0x80 ≠ 0) :
    decode_u64 ⟨data, pos⟩
      = (.error ⟨pos, .Leb128, .Leb128Overflow⟩, ⟨data, pos + 10⟩) := by
  have hdrop9 : data.drop (pos + 9) = b9 :: rest := by
    have := @drop_add_of_drop data pos [b0, b1, b2, b3, b4, b5, b6, b7, b8]
      (b9 :: rest) (by simpa using hdrop) 9 (by simp)
    simpa using this
  obtain ⟨result', hsteps⟩ := decodeULoop_cont_steps 64 0xFE pos 9 1 0 0 data pos
    [b0, b1, b2, b3, b4, b5, b6, b7, b8] (b9 :: rest) (by norm_num) (by simp)
    (by simpa using hdrop)
    (by intro b hb; apply hcont; simp only [List.mem_cons] at hb ⊢; tauto)
  norm_num at hsteps
  rw [decode_u64]
  dsimp only
  rw [hsteps]
  obtain ⟨hrb9, -⟩ := read_byte_drop hdrop9
  rw [show (1:Nat) = 0 + 1 from rfl, decodeULoop, hrb9]
  dsimp only
  rw [if_pos ⟨rfl, contBit_in_0xFE (hcont b9 (by simp))⟩]

theorem decode_i32_all_cont (data : List Nat) (pos : Nat)
    (b0 b1 b2 b3 b4 : Nat) (rest : List Nat)
    (hdrop : data.drop pos = [b0, b1, b2, b3, b4] ++ rest)
    (hcont : ∀ b ∈ [b0, b1, b2, b3, b4], b &&& 0x80 ≠ 0) :
    decode_i32 ⟨data, pos⟩
      = (.error ⟨pos, .Leb128, .Leb128TooLong⟩, ⟨data, pos + 5⟩) := by
  obtain ⟨result', hsteps⟩ := decodeSLoop_cont_steps 32 0x70 pos 5 0 0 0 data pos
    [b0, b1, b2, b3, b4] rest (by simp) hdrop hcont
  norm_num at hsteps
  rw [decode_i32]
  dsimp only
  rw [hsteps, decodeSLoop]

theorem decode_i64_all_cont (data : List Nat) (pos : Nat)
    (b0 b1 b2 b3 b4 b5 b6 b7 b8 b9 : Nat) (rest : List Nat)
    (hdrop : data.drop pos = [b0, b1, b2, b3, b4, b5, b6, b7, b8, b9] ++ rest)
    (hcont : ∀ b ∈ [b0, b1, b2, b3, b4, b5, b6, b7, b8, b9], b &&& 0x80 ≠ 0) :
    decode_i64 ⟨data, pos⟩
      = (.error ⟨pos, .Leb128, .Leb128TooLong⟩, ⟨data, pos + 10⟩) := by
  obtain ⟨result', hsteps⟩ := decodeSLoop_cont_steps 64 0x7E pos 10 0 0 0 data pos
    [b0, b1, b2, b3, b4, b5, b6, b7, b8, b9] rest (by simp) hdrop hcont
  norm_num at hsteps
  rw [decode_i64]
  dsimp only
  rw [hsteps, decodeSLoop]
theorem decode_i32_last_byte (data : List Nat) (pos : Nat)
    (b0 b1 b2 b3 b4 : Nat) (rest : List Nat)
    (hdrop : data.drop pos = [b0, b1, b2, b3, b4] ++ rest)
    (hcont : ∀ b ∈ [b0, b1, b2, b3], b &&& 0x80 ≠ 0)
    (hterm : b4 &&& 0x80 = 0) :
    ((b4 &&& 0x70 = 0 ∨ b4 &&& 0x70 = 0x70) →
      ∃ v, decode_i32 ⟨data, pos⟩ = (.ok v, ⟨data, pos + 5⟩)) ∧
    ((b4 &&& 0x70 ≠ 0 ∧ b4 &&& 0x70 ≠ 0x70) →
      decode_i32 ⟨data, pos⟩ = (.error ⟨pos, .Leb128, .Leb128Overflow⟩, ⟨data, pos + 5⟩)) := by
  have hdrop4 : data.drop (pos + 4) = b4 :: rest := by
    have := @drop_add_of_drop data pos [b0, b1, b2, b3] (b4 :: rest)
      (by simpa using hdrop) 4 (by simp)
    simpa using this
  obtain ⟨result', hsteps⟩ := decodeSLoop_cont_steps 32 0x70 pos 4 1 0 0 data pos
    [b0, b1, b2, b3] (b4 :: rest) (by simp) (by simpa using hdrop)
    (by intro b hb; apply hcont; simpa using hb)
  norm_num at hsteps
  obtain ⟨hrb4, -⟩ := read_byte_drop hdrop4
  have hstep1 : decode_i32 ⟨data, pos⟩
      = decodeSLoop 32 0x70 pos 1 result' 28 ⟨data, pos + 4⟩ := by
    rw [decode_i32]
    dsimp only
    exact hsteps
  rw [hstep1, show (1:Nat) = 0 + 1 from rfl, decodeSLoop, hrb4]
  dsimp only
  rw [if_pos hterm, if_pos rfl]
  constructor
  · intro hok
    rw [if_neg (by tauto)]
    exact ⟨_, rfl⟩
  · intro hbad
    rw [if_pos hbad]

theorem decode_i64_last_byte (data : List Nat) (pos : Nat)
    (b0 b1 b2 b3 b4 b5 b6 b7 b8 b9 : Nat) (rest : List Nat)
    (hdrop : data.drop pos = [b0, b1, b2, b3, b4, b5, b6, b7, b8, b9] ++ rest)
    (hcont : ∀ b ∈ [b0, b1, b2, b3, b4, b5, b6, b7, b8], b &&& 0x80 ≠ 0)
    (hterm : b9 &&& 0x80 = 0) :
    ((b9 &&& 0x7E = 0 ∨ b9 &&& 0x7E = 0x7E) →
      ∃ v, decode_i64 ⟨data, pos⟩ = (.ok v, ⟨data, pos + 10⟩)) ∧
    ((b9 &&& 0x7E ≠ 0 ∧ b9 &&& 0x7E ≠ 0x7E) →
      decode_i64 ⟨data, pos⟩ = (.error ⟨pos, .Leb128, .Leb128Overflow⟩, ⟨data, pos + 10⟩)) := by
  have hdrop9 : data.drop (pos + 9) = b9 :: rest := by
    have := @drop_add_of_drop data pos [b0, b1, b2, b3, b4, b5, b6, b7, b8]
      (b9 :: rest) (by simpa using hdrop) 9 (by simp)
    simpa using this
  obtain ⟨result', hsteps⟩ := decodeSLoop_cont_steps 64 0x7E pos 9 1 0 0 data pos
    [b0, b1, b2, b3, b4, b5, b6, b7, b8] (b9 :: rest) (by simp) (by simpa using hdrop)
    (by intro b hb; apply hcont; simpa using hb)
  norm_num at hsteps
  obtain ⟨hrb9, -⟩ := read_byte_drop hdrop9
  have hstep1 : decode_i64 ⟨data, pos⟩
      = decodeSLoop 64 0x7E pos 1 result' 63 ⟨data, pos + 9⟩ := by
    rw [decode_i64]
    dsimp only
    exact hsteps
  rw [hstep1, show (1:Nat) = 0 + 1 from rfl, decodeSLoop, hrb9]
  dsimp only
  rw [if_pos hterm, if_pos rfl]
  constructor
  · intro hok
    rw [if_neg (by tauto)]
    exact ⟨_, rfl⟩
  · intro hbad
    rw [if_pos hbad]

/-! ### Preamble-level lemmas -/

/-- Exact outcome of `Module::decode` on any buffer shorter than 8 bytes. -/
theorem decode_short_buffer (bytes : List Nat) (h : bytes.length < 8) :
    Module.decode bytes = .error
      (if bytes.length < 4 then ⟨0, .Magic, .UnexpectedEof⟩
       else if bytes.take 4 ≠ WASM_MAGIC then ⟨0, .Magic, .InvalidMagic⟩
       else ⟨4, .Version, .UnexpectedEof⟩) := by
  by_cases h4 : bytes.length < 4
  · have hr : ¬ (0 + 4 ≤ bytes.length) := by omega
    rw [Module.decode]
    dsimp only [Cursor.new]
    rw [parse_preamble, Cursor.read_bytes, if_neg hr, if_pos h4]
  · have hr : (0 + 4 ≤ bytes.length) := by omega
    rw [Module.decode]
    dsimp only [Cursor.new]
    rw [parse_preamble, Cursor.read_bytes, if_pos hr]
    dsimp only
    rw [List.drop_zero]
    by_cases hm : bytes.take 4 = WASM_MAGIC
    · rw [if_neg (by simpa using hm)]
      have hr2 : ¬ (4 + 4 ≤ bytes.length) := by omega
      rw [Cursor.read_bytes, if_neg hr2, if_neg h4, if_neg (by simpa using hm)]
    · rw [if_pos (by simpa using hm), if_neg h4, if_pos (by simpa using hm)]

/-- A successful sliced read at a position whose suffix is known. -/
theorem read_bytes_drop {data : List Nat} {pos : Nat} {bs rest : List Nat} (n : Nat)
    (hpos : pos ≤ data.length) (h : data.drop pos = bs ++ rest) (hn : bs.length = n) :
    Cursor.read_bytes ⟨data, pos⟩ n = (.ok bs, ⟨data, pos + n⟩) ∧
      data.drop (pos + n) = rest := by
  have hlen : pos + n ≤ data.length := by
    have h2 := congrArg List.length h
    simp only [List.length_drop, List.length_append] at h2
    omega
  rw [Cursor.read_bytes, if_pos hlen]
  refine ⟨?_, drop_add_of_drop h n hn.symm⟩
  rw [h, ← hn, List.take_left]

/-- `parse_preamble` on correct magic, arbitrary version bytes, any tail. -/
theorem parse_preamble_version (b4 b5 b6 b7 : Nat) (rest : List Nat) :
    parse_preamble (Cursor.new (WASM_MAGIC ++ [b4, b5, b6, b7] ++ rest))
      = (if [b4, b5, b6, b7] = WASM_VERSION
         then (.ok (), ⟨WASM_MAGIC ++ [b4, b5, b6, b7] ++ rest, 8⟩)
         else (.error ⟨4, .Version, .UnsupportedVersion (le32 [b4, b5, b6, b7])⟩,
               ⟨WASM_MAGIC ++ [b4, b5, b6, b7] ++ rest, 8⟩)) := by
  have h0 : (WASM_MAGIC ++ [b4, b5, b6, b7] ++ rest).drop 0
      = WASM_MAGIC ++ ([b4, b5, b6, b7] ++ rest) := by simp
  obtain ⟨hr1, hd1⟩ := read_bytes_drop 4 (by omega) h0 (by simp [WASM_MAGIC])
  rw [parse_preamble, Cursor.new, hr1]
  dsimp only
  rw [if_neg (by simp)]
  obtain ⟨hr2, hd2⟩ := read_bytes_drop 4 (by simp [WASM_MAGIC]) hd1 (by simp)
  rw [hr2]
  dsimp only
  by_cases hv : [b4, b5, b6, b7] = WASM_VERSION
  · rw [if_neg (by simpa using hv), if_pos hv]
  · rw [if_pos (by simpa using hv), if_neg hv]

/-- `Module::decode` on correct magic and an unsupported version. -/
theorem decode_unsupported_version (b4 b5 b6 b7 : Nat) (rest : List Nat)
    (hne : [b4, b5, b6, b7] ≠ WASM_VERSION) :
    Module.decode (WASM_MAGIC ++ [b4, b5, b6, b7] ++ rest)
      = .error ⟨4, .Version, .UnsupportedVersion (le32 [b4, b5, b6, b7])⟩ := by
  rw [Module.decode]
  rw [parse_preamble_version, if_neg hne]

/-- `le32` equals 1 exactly on the version-1 byte string. -/
theorem le32_eq_one_iff (b4 b5 b6 b7 : Nat) :
    le32 [b4, b5, b6, b7] = 1 ↔ [b4, b5, b6, b7] = WASM_VERSION := by
  rw [le32, WASM_VERSION]
  constructor
  · intro h
    have : b4 = 1 ∧ b5 = 0 ∧ b6 = 0 ∧ b7 = 0 := by omega
    simp [this]
  · intro h
    simp at h
    simp [h]

/-! ### Section-scanner lemmas -/

theorem from_byte_custom_iff (id : Nat) :
    SectionId.from_byte id = some SectionId.custom ↔ id = 0 := by
  unfold SectionId.from_byte
  split <;> simp_all

theorem encodeU_length_pos (v : Nat) : 0 < (encodeU v).length := by
  rw [encodeU]
  split <;> simp

/-- The section-scanner loop on a serialised well-formed section stream
consumes the whole remaining input and returns the corresponding
`RawSection`s appended to the accumulator, in file order. -/
theorem parseSectionsLoop_serialize :
    ∀ (items : List (Nat × List Nat)) (fuel : Nat) (last : Option Nat)
      (acc : List RawSection) (data : List Nat) (pos : Nat),
      data.drop pos = serializeSections items →
      pos ≤ data.length →
      chainOk last items = true →
      items.length + 1 ≤ fuel →
      parseSectionsLoop fuel last acc ⟨data, pos⟩
        = (.ok (acc ++ expectedSections pos items), ⟨data, data.length⟩) := by
  intro items
  induction items with
  | nil =>
    intro fuel last acc data pos hdrop hpos _ hfuel
    obtain ⟨f, rfl⟩ : ∃ f, fuel = f + 1 := ⟨fuel - 1, by omega⟩
    have hempty : data.length ≤ pos := by
      have := congrArg List.length hdrop
      simp [serializeSections] at this
      omega
    rw [parseSectionsLoop, if_pos (by simp [Cursor.is_empty]; omega)]
    simp [expectedSections]
    omega
  | cons item rest ih =>
    obtain ⟨id, body⟩ := item
    intro fuel last acc data pos hdrop hpos hchain hfuel
    obtain ⟨f, rfl⟩ : ∃ f, fuel = f + 1 := ⟨fuel - 1, by omega⟩
    have hdropc : data.drop pos
        = id :: (encodeU body.length ++ (body ++ serializeSections rest)) := by
      rw [show serializeSections ((id, body) :: rest)
            = sectionBytes (id, body) ++ serializeSections rest from rfl] at hdrop
      simpa [sectionBytes] using hdrop
    obtain ⟨hrb, hdrop1⟩ := read_byte_drop hdropc
    -- chain conditions
    simp only [chainOk, Bool.and_eq_true, decide_eq_true_eq] at hchain
    obtain ⟨⟨hsome, hlen32⟩, hrest⟩ := hchain
    obtain ⟨sid, hsid⟩ := Option.isSome_iff_exists.mp hsome
    have hposlt : pos < data.length := by
      by_contra hc
      rw [List.drop_eq_nil_of_le (by omega)] at hdropc
      exact List.noConfusion hdropc
    rw [parseSectionsLoop, if_neg (by simp [Cursor.is_empty]; omega), hrb]
    dsimp only
    rw [hsid]
    rw [decode_u32_canonical body.length data (pos + 1) (body ++ serializeSections rest)
      hlen32 hdrop1]
    dsimp only
    have hdrop2 : data.drop (pos + 1 + (encodeU body.length).length)
        = body ++ serializeSections rest :=
      drop_add_of_drop hdrop1 _ rfl
    have hlen2 : data.length - (pos + 1 + (encodeU body.length).length)
        = body.length + (serializeSections rest).length := by
      have := congrArg List.length hdrop2
      simpa using this
    have hcoff : pos + 1 + (encodeU body.length).length ≤ data.length := by
      have h1 := congrArg List.length hdrop1
      simp only [List.length_drop, List.length_append] at h1
      have := encodeU_length_pos body.length
      omega
    rw [if_neg (by
      simp only [Cursor.remaining, hdrop2, List.length_append]
      omega)]
    have hbody := read_bytes_drop body.length hcoff hdrop2 rfl
    -- ordering check and tail recursion, split on whether the id is custom
    by_cases hid0 : id = 0
    · have hcust : sid = SectionId.custom := by
        rw [hid0] at hsid
        have := (from_byte_custom_iff 0).mpr rfl
        rw [this] at hsid
        exact (Option.some.inj hsid).symm
      rw [if_pos hcust]
      dsimp only
      rw [hbody.1]
      dsimp only
      rw [if_pos hcust]
      have hrec := ih f last (acc ++ [⟨sid, pos + 1 + (encodeU body.length).length, body⟩])
        data (pos + 1 + (encodeU body.length).length + body.length)
        hbody.2 (by omega) (by rw [hid0] at hrest; simpa using hrest) (by
          simp only [List.length_cons] at hfuel
          omega)
      rw [hrec]
      simp only [expectedSections, List.append_assoc, List.singleton_append]
      rw [hsid]
      simp [hcust]
    · have hncust : sid ≠ SectionId.custom := by
        intro hc
        rw [hc] at hsid
        exact hid0 ((from_byte_custom_iff id).mp hsid)
      rw [if_neg hncust]
      simp only [if_neg hid0, Bool.and_eq_true] at hrest
      rcases hlast : last with _ | prev
      · dsimp only
        rw [hbody.1]
        dsimp only
        rw [if_neg hncust]
        rw [hlast] at hrest
        have hrec := ih f (some id)
          (acc ++ [⟨sid, pos + 1 + (encodeU body.length).length, body⟩])
          data (pos + 1 + (encodeU body.length).length + body.length)
          hbody.2 (by omega) (by simpa using hrest.2) (by
            simp only [List.length_cons] at hfuel
            omega)
        rw [hrec]
        simp only [expectedSections, List.append_assoc, List.singleton_append]
        rw [hsid]
        simp [hncust]
      · rw [hlast] at hrest
        simp only [decide_eq_true_eq] at hrest
        obtain ⟨hlt, hchainrest⟩ := hrest
        dsimp only
        rw [if_neg (show ¬ id = prev by omega), if_neg (show ¬ id < prev by omega)]
        dsimp only
        rw [hbody.1]
        dsimp only
        rw [if_neg hncust]
        have hrec := ih f (some id)
          (acc ++ [⟨sid, pos + 1 + (encodeU body.length).length, body⟩])
          data (pos + 1 + (encodeU body.length).length + body.length)
          hbody.2 (by omega) (by simpa using hchainrest) (by
            simp only [List.length_cons] at hfuel
            omega)
        rw [hrec]
        simp only [expectedSections, List.append_assoc, List.singleton_append]
        rw [hsid]
        simp [hncust]
/-- A non-custom section header whose id is not above the last accepted
non-custom id makes the scanner fail at the header offset: equal ids give
`DuplicateSection`, smaller ids give `SectionOutOfOrder`. -/
theorem parseSectionsLoop_ordering_error (fuel : Nat) (prev : Nat)
    (acc : List RawSection) (data : List Nat) (pos : Nat)
    (idByte n : Nat) (tail : List Nat) (sid : SectionId)
    (hdrop : data.drop pos = idByte :: (encodeU n ++ tail))
    (hn : n < 2 ^ 32) (hbound : n ≤ tail.length)
    (hsid : SectionId.from_byte idByte = some sid) (hnc : sid ≠ SectionId.custom) :
    (idByte = prev →
      parseSectionsLoop (fuel + 1) (some prev) acc ⟨data, pos⟩
        = (.error ⟨pos, .SectionHeader, .DuplicateSection idByte⟩,
           ⟨data, pos + 1 + (encodeU n).length⟩)) ∧
    (idByte < prev →
      parseSectionsLoop (fuel + 1) (some prev) acc ⟨data, pos⟩
        = (.error ⟨pos, .SectionHeader, .SectionOutOfOrder prev idByte⟩,
           ⟨data, pos + 1 + (encodeU n).length⟩)) := by
  obtain ⟨hrb, hdrop1⟩ := read_byte_drop hdrop
  have hposlt : pos < data.length := by
    by_contra hc
    rw [List.drop_eq_nil_of_le (by omega)] at hdrop
    exact List.noConfusion hdrop
  have hdrop2 : data.drop (pos + 1 + (encodeU n).length) = tail :=
    drop_add_of_drop hdrop1 _ rfl
  have hrem : data.length - (pos + 1 + (encodeU n).length) = tail.length := by
    have := congrArg List.length hdrop2
    simpa using this
  have hstart :
      parseSectionsLoop (fuel + 1) (some prev) acc ⟨data, pos⟩
        = (match (if idByte = prev then
              some (⟨pos, .SectionHeader, .DuplicateSection idByte⟩ : DecodeError)
            else if idByte < prev then
              some ⟨pos, .SectionHeader, .SectionOutOfOrder prev idByte⟩
            else none : Option DecodeError) with
          | some e => (.error e, (⟨data, pos + 1 + (encodeU n).length⟩ : Cursor))
          | none =>
            match Cursor.read_bytes ⟨data, pos + 1 + (encodeU n).length⟩ n with
            | (.error _, c3) =>
              (.error ⟨pos + 1 + (encodeU n).length, .SectionBody idByte, .SectionOverflow⟩, c3)
            | (.ok body, c3) =>
              parseSectionsLoop fuel (some idByte)
                (acc ++ [⟨sid, pos + 1 + (encodeU n).length, body⟩]) c3) := by
    rw [parseSectionsLoop, if_neg (by simp [Cursor.is_empty]; omega), hrb]
    dsimp only
    rw [hsid, decode_u32_canonical n data (pos + 1) tail hn hdrop1]
    dsimp only
    rw [if_neg (by
      simp only [Cursor.remaining, hdrop2]
      omega)]
    rw [if_neg hnc, if_neg hnc]
  constructor
  · intro heq
    rw [hstart, if_pos heq]
  · intro hlt
    rw [hstart, if_neg (by omega), if_pos hlt]

/-- A codec failure while reading the declared content length is re-tagged
with the section-header context; its offset and kind are unchanged. -/
theorem parseSectionsLoop_codec_retag (fuel : Nat) (last : Option Nat)
    (acc : List RawSection) (data : List Nat) (pos : Nat)
    (idByte : Nat) (tail : List Nat) (sid : SectionId) (e : DecodeError) (c' : Cursor)
    (hdrop : data.drop pos = idByte :: tail)
    (hsid : SectionId.from_byte idByte = some sid)
    (hdec : decode_u32 ⟨data, pos + 1⟩ = (.error e, c')) :
    parseSectionsLoop (fuel + 1) last acc ⟨data, pos⟩
      = (.error ⟨e.offset, .SectionHeader, e.kind⟩, c') := by
  obtain ⟨hrb, -⟩ := read_byte_drop hdrop
  have hposlt : pos < data.length := by
    by_contra hc
    rw [List.drop_eq_nil_of_le (by omega)] at hdrop
    exact List.noConfusion hdrop
  rw [parseSectionsLoop, if_neg (by simp [Cursor.is_empty]; omega), hrb]
  dsimp only
  rw [hsid, hdec]

/-- A byte-read failure inside the unsigned decode loop is re-tagged with
the LEB128 context and the start offset; its kind is unchanged. -/
theorem decodeULoop_read_retag (width lastMask start fuel result shift : Nat)
    (c c' : Cursor) (e : DecodeError)
    (hrb : Cursor.read_byte c = (.error e, c')) :
    decodeULoop width lastMask start (fuel + 1) result shift c
      = (.error ⟨start, .Leb128, e.kind⟩, c') := by
  rw [decodeULoop, hrb]

/-! ### Loop invariants for the section scanner -/

/-- Any error value produced by the ordering-check expression carries the
section-header context. -/
theorem ordError_context (pos idByte : Nat) (last : Option Nat) (sid : SectionId)
    (e : DecodeError)
    (h : (if sid = SectionId.custom then none
          else
            match last with
            | some prev =>
              if idByte = prev then
                some (⟨pos, .SectionHeader, .DuplicateSection idByte⟩ : DecodeError)
              else if idByte < prev then
                some ⟨pos, .SectionHeader, .SectionOutOfOrder prev idByte⟩
              else none
            | none => none) = some e) :
    e.context = .SectionHeader := by
  split at h
  · exact Option.noConfusion h
  · split at h
    · split at h
      · cases h
        rfl
      · split at h
        · cases h
          rfl
        · exact Option.noConfusion h
    · exact Option.noConfusion h

/-- Every error the section-scanner loop returns carries the
section-header context; in particular the section-body error branch is
unreachable thanks to the header-time bounds check. -/
theorem parseSectionsLoop_error_context :
    ∀ (fuel : Nat) (last : Option Nat) (acc : List RawSection) (c : Cursor)
      (e : DecodeError) (c' : Cursor),
      c.pos ≤ c.data.length →
      parseSectionsLoop fuel last acc c = (.error e, c') →
      e.context = .SectionHeader := by
  intro fuel
  induction fuel with
  | zero =>
    intro last acc c e c' hpos h
    rw [parseSectionsLoop] at h
    cases h
    rfl
  | succ fuel ih =>
    intro last acc c e c' hpos h
    rw [parseSectionsLoop] at h
    by_cases hemp : c.is_empty
    · rw [if_pos hemp] at h
      simp at h
    · rw [if_neg hemp] at h
      rcases read_byte_cases c with ⟨b, hrb, hlt⟩ | ⟨hrb, hge⟩
      · rw [hrb] at h
        dsimp only at h
        cases hsb : SectionId.from_byte b with
        | none =>
          rw [hsb] at h
          simp only [Prod.mk.injEq, Except.error.injEq] at h
          rw [← h.1]
        | some sid =>
          rw [hsb] at h
          dsimp only at h
          rcases hdec : decode_u32 ⟨c.data, c.pos + 1⟩ with ⟨r2, c2⟩
          have hcur : c2.data = c.data ∧ c.pos + 1 ≤ c2.pos ∧
              (c.pos + 1 ≤ c.data.length → c2.pos ≤ c.data.length) := by
            have hd2 := hdec
            rw [decode_u32] at hd2
            have := decodeULoop_cursor 32 0xF0 _ 5 0 0 _ _ _ hd2
            simpa using this
          cases r2 with
          | error e2 =>
            rw [hdec] at h
            dsimp only at h
            simp only [Prod.mk.injEq, Except.error.injEq] at h
            rw [← h.1]
          | ok size =>
            rw [hdec] at h
            dsimp only at h
            by_cases hov : c2.pos + size > c2.pos + c2.remaining.length
            · rw [if_pos hov] at h
              simp only [Prod.mk.injEq, Except.error.injEq] at h
              rw [← h.1]
            · rw [if_neg hov] at h
              split at h
              · -- ordering error
                rename_i e3 hord
                simp only [Prod.mk.injEq, Except.error.injEq] at h
                rw [← h.1]
                split at hord
                · exact Option.noConfusion hord
                · split at hord
                  · split at hord
                    · cases hord
                      rfl
                    · split at hord
                      · cases hord
                        rfl
                      · exact Option.noConfusion hord
                  · exact Option.noConfusion hord
              · -- ordering passed: body slice cannot fail under the bounds check
                have hle : c2.pos + size ≤ c2.data.length := by
                  have hrem : c2.remaining.length = c2.data.length - c2.pos := by
                    simp [Cursor.remaining]
                  rw [hcur.1] at hrem ⊢
                  have := hcur.2.2 (by omega)
                  omega
                rcases hrbs : Cursor.read_bytes c2 size with ⟨r3, c3⟩
                have hrbs2 := hrbs
                rw [Cursor.read_bytes, if_pos hle] at hrbs2
                cases r3 with
                | error e3 =>
                  simp at hrbs2
                | ok body =>
                  rw [hrbs] at h
                  dsimp only at h
                  have hc3 : c3 = ⟨c2.data, c2.pos + size⟩ := by
                    simp only [Prod.mk.injEq, Except.ok.injEq] at hrbs2
                    exact hrbs2.2.symm
                  apply ih _ _ _ _ _ (by
                    rw [hc3, hcur.1]
                    dsimp only
                    rw [hcur.1] at hle
                    omega) h
      · rw [hrb] at h
        dsimp only at h
        simp only [Prod.mk.injEq, Except.error.injEq] at h
        rw [← h.1]
/-- Every section the scanner loop returns either was already in the
accumulator or is a faithful slice of the buffer at or after the starting
position. -/
theorem parseSectionsLoop_sections :
    ∀ (fuel : Nat) (last : Option Nat) (acc : List RawSection) (c : Cursor)
      (secs : List RawSection) (c' : Cursor),
      c.pos ≤ c.data.length →
      parseSectionsLoop fuel last acc c = (.ok secs, c') →
      ∀ s ∈ secs, s ∈ acc ∨
        (c.pos ≤ s.offset ∧ s.offset + s.data.length ≤ c.data.length ∧
         s.data = (c.data.drop s.offset).take s.data.length) := by
  intro fuel
  induction fuel with
  | zero =>
    intro last acc c secs c' hpos h
    rw [parseSectionsLoop] at h
    simp at h
  | succ fuel ih =>
    intro last acc c secs c' hpos h
    rw [parseSectionsLoop] at h
    by_cases hemp : c.is_empty
    · rw [if_pos hemp] at h
      simp only [Prod.mk.injEq, Except.ok.injEq] at h
      intro s hs
      rw [← h.1] at hs
      exact Or.inl hs
    · rw [if_neg hemp] at h
      rcases read_byte_cases c with ⟨b, hrb, hlt⟩ | ⟨hrb, hge⟩
      · rw [hrb] at h
        dsimp only at h
        cases hsb : SectionId.from_byte b with
        | none =>
          rw [hsb] at h
          simp at h
        | some sid =>
          rw [hsb] at h
          dsimp only at h
          rcases hdec : decode_u32 ⟨c.data, c.pos + 1⟩ with ⟨r2, c2⟩
          have hcur : c2.data = c.data ∧ c.pos + 1 ≤ c2.pos ∧
              (c.pos + 1 ≤ c.data.length → c2.pos ≤ c.data.length) := by
            have hd2 := hdec
            rw [decode_u32] at hd2
            have := decodeULoop_cursor 32 0xF0 _ 5 0 0 _ _ _ hd2
            simpa using this
          cases r2 with
          | error e2 =>
            rw [hdec] at h
            simp at h
          | ok size =>
            rw [hdec] at h
            dsimp only at h
            by_cases hov : c2.pos + size > c2.pos + c2.remaining.length
            · rw [if_pos hov] at h
              simp at h
            · rw [if_neg hov] at h
              split at h
              · simp at h
              · have hle : c2.pos + size ≤ c2.data.length := by
                  have hrem : c2.remaining.length = c2.data.length - c2.pos := by
                    simp [Cursor.remaining]
                  rw [hcur.1] at hrem ⊢
                  have := hcur.2.2 (by omega)
                  omega
                rcases hrbs : Cursor.read_bytes c2 size with ⟨r3, c3⟩
                have hrbs2 := hrbs
                rw [Cursor.read_bytes, if_pos hle] at hrbs2
                cases r3 with
                | error e3 =>
                  simp at hrbs2
                | ok body =>
                  rw [hrbs] at h
                  dsimp only at h
                  simp only [Prod.mk.injEq, Except.ok.injEq] at hrbs2
                  obtain ⟨hbody, hc3⟩ := hrbs2
                  have hih := ih _ _ _ _ _ (by
                    rw [← hc3, hcur.1]
                    dsimp only
                    rw [hcur.1] at hle
                    omega) h
                  intro s hs
                  rcases hih s hs with hmem | hnew
                  · rw [List.mem_append] at hmem
                    rcases hmem with hacc | hsec
                    · exact Or.inl hacc
                    · right
                      simp only [List.mem_singleton] at hsec
                      subst hsec
                      dsimp only
                      rw [hcur.1] at hle
                      have hblen : body.length = size := by
                        rw [← hbody]
                        simp only [List.length_take, List.length_drop]
                        rw [hcur.1]
                        omega
                      refine ⟨by omega, by omega, ?_⟩
                      rw [hblen, ← hbody, hcur.1]
                  · right
                    rw [← hc3, hcur.1] at hnew
                    dsimp only at hnew
                    refine ⟨by omega, hnew.2.1, hnew.2.2⟩
      · rw [hrb] at h
        dsimp only at h
        simp at h

/-- Shape of a successful preamble parse. -/
theorem parse_preamble_ok_shape (bytes : List Nat) (c1 : Cursor)
    (h : parse_preamble (Cursor.new bytes) = (.ok (), c1)) :
    c1 = ⟨bytes, 8⟩ ∧ 8 ≤ bytes.length := by
  rw [parse_preamble] at h
  by_cases h4 : 0 + 4 ≤ bytes.length
  · rw [Cursor.read_bytes, Cursor.new] at h
    dsimp only at h
    rw [if_pos h4] at h
    dsimp only at h
    split at h
    · simp at h
    · by_cases h8 : 4 + 4 ≤ bytes.length
      · rw [Cursor.read_bytes, if_pos (by simpa using h8)] at h
        dsimp only at h
        split at h
        · simp at h
        · simp only [Prod.mk.injEq] at h
          refine ⟨h.2.symm ▸ rfl, by omega⟩
      · rw [Cursor.read_bytes, if_neg (by simpa using h8)] at h
        simp at h
  · rw [Cursor.read_bytes, Cursor.new] at h
    dsimp only at h
    rw [if_neg h4] at h
    simp at h

/-! ### Claim theorems -/

/-- C1: for every valid canonical LEB128 encoding of an in-range value,
the corresponding decode function returns exactly that value and leaves
the cursor immediately past the encoding's last byte; in particular bytes
`E5 8E 26` decode as unsigned 32-bit to `624485` and byte `7F` decodes as
signed 32-bit to `-1`. -/
theorem C1_canonical_leb128_roundtrip :
    (∀ (v : Nat) (data : List Nat) (pos : Nat) (rest : List Nat),
      v < 2 ^ 32 → data.drop pos = encodeU v ++ rest →
      decode_u32 ⟨data, pos⟩ = (.ok v, ⟨data, pos + (encodeU v).length⟩)) ∧
    (∀ (v : Nat) (data : List Nat) (pos : Nat) (rest : List Nat),
      v < 2 ^ 64 → data.drop pos = encodeU v ++ rest →
      decode_u64 ⟨data, pos⟩ = (.ok v, ⟨data, pos + (encodeU v).length⟩)) ∧
    (∀ (v : Int) (data : List Nat) (pos : Nat) (rest : List Nat),
      -(2 ^ 31) ≤ v → v < 2 ^ 31 → data.drop pos = encodeS v ++ rest →
      decode_i32 ⟨data, pos⟩ = (.ok v, ⟨data, pos + (encodeS v).length⟩)) ∧
    (∀ (v : Int) (data : List Nat) (pos : Nat) (rest : List Nat),
      -(2 ^ 63) ≤ v → v < 2 ^ 63 → data.drop pos = encodeS v ++ rest →
      decode_i64 ⟨data, pos⟩ = (.ok v, ⟨data, pos + (encodeS v).length⟩)) ∧
    decode_u32 (Cursor.new [0xE5, 0x8E, 0x26])
      = (.ok 624485, ⟨[0xE5, 0x8E, 0x26], 3⟩) ∧
    decode_i32 (Cursor.new [0x7F]) = (.ok (-1), ⟨[0x7F], 1⟩) :=
  ⟨fun v data pos rest hv h => decode_u32_canonical v data pos rest hv h,
   fun v data pos rest hv h => decode_u64_canonical v data pos rest hv h,
   fun v data pos rest hlo hhi h => decode_i32_canonical v data pos rest hlo hhi h,
   fun v data pos rest hlo hhi h => decode_i64_canonical v data pos rest hlo hhi h,
   rfl, rfl⟩

/-- Witness for C1: the general round-trip conjuncts applied to the two
concrete scenarios from the specification. -/
theorem C1_witness :
    decode_u32 ⟨[0xE5, 0x8E, 0x26], 0⟩
      = (.ok 624485, ⟨[0xE5, 0x8E, 0x26], 0 + (encodeU 624485).length⟩) ∧
    decode_i32 ⟨[0x7F], 0⟩ = (.ok (-1), ⟨[0x7F], 0 + (encodeS (-1)).length⟩) :=
  ⟨C1_canonical_leb128_roundtrip.1 624485 [0xE5, 0x8E, 0x26] 0 [] (by norm_num)
      (by simp [encodeU]),
   C1_canonical_leb128_roundtrip.2.2.1 (-1) [0x7F] 0 [] (by norm_num) (by norm_num)
      (by simp [encodeS])⟩

/-- C3 counterexample: on an input with more than five continuation bytes,
`decode_u32` fails with `Leb128Overflow`, not `Leb128TooLong` --- the
final-byte unused-bits check fires before the too-long exit (this matches
the repository's own `u32_too_long` test, which asserts `Leb128Overflow`). -/
theorem C3_counterexample :
    decode_u32 ⟨[0x80, 0x80, 0x80, 0x80, 0x80, 0x00], 0⟩
      = (.error ⟨0, .Leb128, .Leb128Overflow⟩, ⟨[0x80, 0x80, 0x80, 0x80, 0x80, 0x00], 5⟩)
    ∧ DecodeErrorKind.Leb128Overflow ≠ DecodeErrorKind.Leb128TooLong :=
  ⟨rfl, by decide⟩

/-- C3 (amended): on inputs whose first five (resp. ten) bytes all carry
the continuation bit, the signed decoders fail with `Leb128TooLong`, while
the unsigned decoders fail with `Leb128Overflow` because the final-byte
unused-bits check fires on the continuation byte first; all four report
the error at the start offset of the encoding. -/
theorem C3_too_many_continuation_bytes :
    (∀ (data : List Nat) (pos : Nat) (b0 b1 b2 b3 b4 : Nat) (rest : List Nat),
      data.drop pos = [b0, b1, b2, b3, b4] ++ rest →
      (∀ b ∈ [b0, b1, b2, b3, b4], b &&& 0x80 ≠ 0) →
      decode_i32 ⟨data, pos⟩ = (.error ⟨pos, .Leb128, .Leb128TooLong⟩, ⟨data, pos + 5⟩) ∧
      decode_u32 ⟨data, pos⟩ = (.error ⟨pos, .Leb128, .Leb128Overflow⟩, ⟨data, pos + 5⟩)) ∧
    (∀ (data : List Nat) (pos : Nat) (b0 b1 b2 b3 b4 b5 b6 b7 b8 b9 : Nat) (rest : List Nat),
      data.drop pos = [b0, b1, b2, b3, b4, b5, b6, b7, b8, b9] ++ rest →
      (∀ b ∈ [b0, b1, b2, b3, b4, b5, b6, b7, b8, b9], b &&& 0x80 ≠ 0) →
      decode_i64 ⟨data, pos⟩ = (.error ⟨pos, .Leb128, .Leb128TooLong⟩, ⟨data, pos + 10⟩) ∧
      decode_u64 ⟨data, pos⟩ = (.error ⟨pos, .Leb128, .Leb128Overflow⟩, ⟨data, pos + 10⟩)) :=
  ⟨fun data pos b0 b1 b2 b3 b4 rest hdrop hcont =>
    ⟨decode_i32_all_cont data pos b0 b1 b2 b3 b4 rest hdrop hcont,
     decode_u32_all_cont data pos b0 b1 b2 b3 b4 rest hdrop hcont⟩,
   fun data pos b0 b1 b2 b3 b4 b5 b6 b7 b8 b9 rest hdrop hcont =>
    ⟨decode_i64_all_cont data pos b0 b1 b2 b3 b4 b5 b6 b7 b8 b9 rest hdrop hcont,
     decode_u64_all_cont data pos b0 b1 b2 b3 b4 b5 b6 b7 b8 b9 rest hdrop hcont⟩⟩

/-- Witness for the amended C3, at ten `0x80` continuation bytes. -/
theorem C3_witness :
    (decode_i32 ⟨[0x80, 0x80, 0x80, 0x80, 0x80, 0x80, 0x80, 0x80, 0x80, 0x80], 0⟩
      = (.error ⟨0, .Leb128, .Leb128TooLong⟩,
         ⟨[0x80, 0x80, 0x80, 0x80, 0x80, 0x80, 0x80, 0x80, 0x80, 0x80], 5⟩) ∧
     decode_u32 ⟨[0x80, 0x80, 0x80, 0x80, 0x80, 0x80, 0x80, 0x80, 0x80, 0x80], 0⟩
      = (.error ⟨0, .Leb128, .Leb128Overflow⟩,
         ⟨[0x80, 0x80, 0x80, 0x80, 0x80, 0x80, 0x80, 0x80, 0x80, 0x80], 5⟩)) ∧
    (decode_i64 ⟨[0x80, 0x80, 0x80, 0x80, 0x80, 0x80, 0x80, 0x80, 0x80, 0x80], 0⟩
      = (.error ⟨0, .Leb128, .Leb128TooLong⟩,
         ⟨[0x80, 0x80, 0x80, 0x80, 0x80, 0x80, 0x80, 0x80, 0x80, 0x80], 10⟩) ∧
     decode_u64 ⟨[0x80, 0x80, 0x80, 0x80, 0x80, 0x80, 0x80, 0x80, 0x80, 0x80], 0⟩
      = (.error ⟨0, .Leb128, .Leb128Overflow⟩,
         ⟨[0x80, 0x80, 0x80, 0x80, 0x80, 0x80, 0x80, 0x80, 0x80, 0x80], 10⟩)) :=
  ⟨C3_too_many_continuation_bytes.1
     [0x80, 0x80, 0x80, 0x80, 0x80, 0x80, 0x80, 0x80, 0x80, 0x80] 0
     0x80 0x80 0x80 0x80 0x80 [0x80, 0x80, 0x80, 0x80, 0x80] rfl (by decide),
   C3_too_many_continuation_bytes.2
     [0x80, 0x80, 0x80, 0x80, 0x80, 0x80, 0x80, 0x80, 0x80, 0x80] 0
     0x80 0x80 0x80 0x80 0x80 0x80 0x80 0x80 0x80 0x80 [] rfl (by decide)⟩
/-- C4: for signed decoding, when the terminal byte is the last allowed
byte (5th for i32, 10th for i64), its unused high bits together with the
sign bit (mask `0x70` for i32, `0x7E` for i64) must be all zero or all
one; exactly then the byte is accepted, and any other bit pattern fails
with `Leb128Overflow` --- no such non-canonical encoding is silently
accepted. -/
theorem C4_signed_final_byte_sign_bits :
    (∀ (data : List Nat) (pos : Nat) (b0 b1 b2 b3 b4 : Nat) (rest : List Nat),
      data.drop pos = [b0, b1, b2, b3, b4] ++ rest →
      (∀ b ∈ [b0, b1, b2, b3], b &&& 0x80 ≠ 0) →
      b4 &&& 0x80 = 0 →
      ((b4 &&& 0x70 = 0 ∨ b4 &&& 0x70 = 0x70) →
        ∃ v, decode_i32 ⟨data, pos⟩ = (.ok v, ⟨data, pos + 5⟩)) ∧
      ((b4 &&& 0x70 ≠ 0 ∧ b4 &&& 0x70 ≠ 0x70) →
        decode_i32 ⟨data, pos⟩
          = (.error ⟨pos, .Leb128, .Leb128Overflow⟩, ⟨data, pos + 5⟩))) ∧
    (∀ (data : List Nat) (pos : Nat) (b0 b1 b2 b3 b4 b5 b6 b7 b8 b9 : Nat) (rest : List Nat),
      data.drop pos = [b0, b1, b2, b3, b4, b5, b6, b7, b8, b9] ++ rest →
      (∀ b ∈ [b0, b1, b2, b3, b4, b5, b6, b7, b8], b &&& 0x80 ≠ 0) →
      b9 &&& 0x80 = 0 →
      ((b9 &&& 0x7E = 0 ∨ b9 &&& 0x7E = 0x7E) →
        ∃ v, decode_i64 ⟨data, pos⟩ = (.ok v, ⟨data, pos + 10⟩)) ∧
      ((b9 &&& 0x7E ≠ 0 ∧ b9 &&& 0x7E ≠ 0x7E) →
        decode_i64 ⟨data, pos⟩
          = (.error ⟨pos, .Leb128, .Leb128Overflow⟩, ⟨data, pos + 10⟩))) :=
  ⟨fun data pos b0 b1 b2 b3 b4 rest hdrop hcont hterm =>
    decode_i32_last_byte data pos b0 b1 b2 b3 b4 rest hdrop hcont hterm,
   fun data pos b0 b1 b2 b3 b4 b5 b6 b7 b8 b9 rest hdrop hcont hterm =>
    decode_i64_last_byte data pos b0 b1 b2 b3 b4 b5 b6 b7 b8 b9 rest hdrop hcont hterm⟩

/-- Witness for C4: a consistent final byte (`0x08`, bits `0x70` clear) is
accepted and an inconsistent one (`0x10`) is rejected with overflow. -/
theorem C4_witness :
    (∃ v, decode_i32 ⟨[0x80, 0x80, 0x80, 0x80, 0x08], 0⟩
      = (.ok v, ⟨[0x80, 0x80, 0x80, 0x80, 0x08], 5⟩)) ∧
    decode_i32 ⟨[0x80, 0x80, 0x80, 0x80, 0x10], 0⟩
      = (.error ⟨0, .Leb128, .Leb128Overflow⟩, ⟨[0x80, 0x80, 0x80, 0x80, 0x10], 5⟩) :=
  ⟨(C4_signed_final_byte_sign_bits.1 [0x80, 0x80, 0x80, 0x80, 0x08] 0
      0x80 0x80 0x80 0x80 0x08 [] rfl (by decide) (by decide)).1 (by decide),
   (C4_signed_final_byte_sign_bits.1 [0x80, 0x80, 0x80, 0x80, 0x10] 0
      0x80 0x80 0x80 0x80 0x10 [] rfl (by decide) (by decide)).2 (by decide)⟩

/-- C5 counterexample: a 4-byte buffer with wrong magic fails with
`InvalidMagic`, not `UnexpectedEof`, although it is shorter than 8 bytes. -/
theorem C5_counterexample :
    ([0x00, 0x00, 0x00, 0x00] : List Nat).length < 8 ∧
    Module.decode [0x00, 0x00, 0x00, 0x00] = .error ⟨0, .Magic, .InvalidMagic⟩ ∧
    DecodeErrorKind.InvalidMagic ≠ DecodeErrorKind.UnexpectedEof :=
  ⟨by decide, rfl, by decide⟩

/-- C5 (amended): every buffer shorter than 8 bytes fails; the kind is
`UnexpectedEof` --- at offset 0 in the magic context when even the magic
cannot be read, at offset 4 in the version context when the magic matches
--- except that a buffer of length 4 to 7 whose first four bytes differ
from the magic fails with `InvalidMagic` instead. -/
theorem C5_short_buffer (bytes : List Nat) (h : bytes.length < 8) :
    Module.decode bytes = .error
      (if bytes.length < 4 then ⟨0, .Magic, .UnexpectedEof⟩
       else if bytes.take 4 ≠ WASM_MAGIC then ⟨0, .Magic, .InvalidMagic⟩
       else ⟨4, .Version, .UnexpectedEof⟩) :=
  decode_short_buffer bytes h

/-- Witness for the amended C5: a truncated 2-byte buffer fails with
`UnexpectedEof` at offset 0. -/
theorem C5_witness :
    Module.decode [0x00, 0x61] = .error
      (if ([0x00, 0x61] : List Nat).length < 4 then ⟨0, .Magic, .UnexpectedEof⟩
       else if ([0x00, 0x61] : List Nat).take 4 ≠ WASM_MAGIC then ⟨0, .Magic, .InvalidMagic⟩
       else ⟨4, .Version, .UnexpectedEof⟩) :=
  C5_short_buffer [0x00, 0x61] (by decide)

/-- C6: for every buffer starting with the correct magic whose next four
bytes exist but read as a little-endian 32-bit value different from 1,
`parse_preamble` --- and hence `Module::decode` --- fails with
`UnsupportedVersion{found}` in the version context at offset 4, where
`found` is exactly the little-endian value of those four bytes. -/
theorem C6_unsupported_version (b4 b5 b6 b7 : Nat) (rest : List Nat)
    (hne : le32 [b4, b5, b6, b7] ≠ 1) :
    (parse_preamble (Cursor.new (WASM_MAGIC ++ [b4, b5, b6, b7] ++ rest))).1
      = .error ⟨4, .Version, .UnsupportedVersion (le32 [b4, b5, b6, b7])⟩ ∧
    Module.decode (WASM_MAGIC ++ [b4, b5, b6, b7] ++ rest)
      = .error ⟨4, .Version, .UnsupportedVersion (le32 [b4, b5, b6, b7])⟩ := by
  have hv : [b4, b5, b6, b7] ≠ WASM_VERSION := by
    intro hc
    exact hne ((le32_eq_one_iff b4 b5 b6 b7).mpr hc)
  constructor
  · rw [parse_preamble_version, if_neg hv]
  · exact decode_unsupported_version b4 b5 b6 b7 rest hv

/-- Witness for C6 at version 2. -/
theorem C6_witness :
    (parse_preamble (Cursor.new (WASM_MAGIC ++ [0x02, 0x00, 0x00, 0x00] ++ []))).1
      = .error ⟨4, .Version, .UnsupportedVersion (le32 [0x02, 0x00, 0x00, 0x00])⟩ ∧
    Module.decode (WASM_MAGIC ++ [0x02, 0x00, 0x00, 0x00] ++ [])
      = .error ⟨4, .Version, .UnsupportedVersion (le32 [0x02, 0x00, 0x00, 0x00])⟩ :=
  C6_unsupported_version 0x02 0x00 0x00 0x00 [] (by decide)
/-- C7: every cursor operation that would run past the end of the buffer
fails with `UnexpectedEof` at the current position and leaves the cursor
unchanged; every operation that succeeds advances the position by exactly
the consumed length; and the invariant `pos ≤ length` holds after every
operation. -/
theorem C7_cursor_contract (c : Cursor) (n : Nat) (hinv : c.pos ≤ c.data.length) :
    ((c.pos < c.data.length →
        ∃ b, Cursor.read_byte c = (.ok b, ⟨c.data, c.pos + 1⟩)) ∧
     (c.data.length ≤ c.pos →
        Cursor.read_byte c = (.error ⟨c.pos, .Leb128, .UnexpectedEof⟩, c))) ∧
    ((c.pos + n ≤ c.data.length →
        ∃ bs, Cursor.read_bytes c n = (.ok bs, ⟨c.data, c.pos + n⟩) ∧ bs.length = n) ∧
     (c.data.length < c.pos + n →
        Cursor.read_bytes c n = (.error ⟨c.pos, .Leb128, .UnexpectedEof⟩, c))) ∧
    ((c.pos + n ≤ c.data.length →
        Cursor.advance c n = (.ok (), ⟨c.data, c.pos + n⟩)) ∧
     (c.data.length < c.pos + n →
        Cursor.advance c n = (.error ⟨c.pos, .Leb128, .UnexpectedEof⟩, c))) ∧
    (Cursor.read_byte c).2.pos ≤ c.data.length ∧
    (Cursor.read_bytes c n).2.pos ≤ c.data.length ∧
    (Cursor.advance c n).2.pos ≤ c.data.length := by
  refine ⟨⟨?_, ?_⟩, ⟨?_, ?_⟩, ⟨?_, ?_⟩, ?_, ?_, ?_⟩
  · intro h
    rw [Cursor.read_byte]
    exact ⟨_, by rw [dif_pos h]⟩
  · intro h
    rw [Cursor.read_byte, dif_neg (by omega)]
  · intro h
    rw [Cursor.read_bytes, if_pos h]
    refine ⟨_, rfl, ?_⟩
    simp only [List.length_take, List.length_drop]
    omega
  · intro h
    rw [Cursor.read_bytes, if_neg (by omega)]
  · intro h
    rw [Cursor.advance, if_pos h]
  · intro h
    rw [Cursor.advance, if_neg (by omega)]
  · rw [Cursor.read_byte]
    split
    · rename_i h
      dsimp only
      omega
    · exact hinv
  · rw [Cursor.read_bytes]
    split
    · rename_i h
      dsimp only
      omega
    · exact hinv
  · rw [Cursor.advance]
    split
    · rename_i h
      dsimp only
      omega
    · exact hinv

/-- Witness for C7 on the three-byte buffer of the repository's
`cursor_tracks_position` test. -/
theorem C7_witness :
    (((⟨[1, 2, 3], 0⟩ : Cursor).pos < (⟨[1, 2, 3], 0⟩ : Cursor).data.length →
        ∃ b, Cursor.read_byte ⟨[1, 2, 3], 0⟩ = (.ok b, ⟨[1, 2, 3], 0 + 1⟩)) ∧
     ((⟨[1, 2, 3], 0⟩ : Cursor).data.length ≤ 0 →
        Cursor.read_byte ⟨[1, 2, 3], 0⟩
          = (.error ⟨0, .Leb128, .UnexpectedEof⟩, ⟨[1, 2, 3], 0⟩))) ∧
    ((0 + 2 ≤ (⟨[1, 2, 3], 0⟩ : Cursor).data.length →
        ∃ bs, Cursor.read_bytes ⟨[1, 2, 3], 0⟩ 2 = (.ok bs, ⟨[1, 2, 3], 0 + 2⟩) ∧
          bs.length = 2) ∧
     ((⟨[1, 2, 3], 0⟩ : Cursor).data.length < 0 + 2 →
        Cursor.read_bytes ⟨[1, 2, 3], 0⟩ 2
          = (.error ⟨0, .Leb128, .UnexpectedEof⟩, ⟨[1, 2, 3], 0⟩))) ∧
    ((0 + 2 ≤ (⟨[1, 2, 3], 0⟩ : Cursor).data.length →
        Cursor.advance ⟨[1, 2, 3], 0⟩ 2 = (.ok (), ⟨[1, 2, 3], 0 + 2⟩)) ∧
     ((⟨[1, 2, 3], 0⟩ : Cursor).data.length < 0 + 2 →
        Cursor.advance ⟨[1, 2, 3], 0⟩ 2
          = (.error ⟨0, .Leb128, .UnexpectedEof⟩, ⟨[1, 2, 3], 0⟩))) ∧
    (Cursor.read_byte ⟨[1, 2, 3], 0⟩).2.pos ≤ (⟨[1, 2, 3], 0⟩ : Cursor).data.length ∧
    (Cursor.read_bytes ⟨[1, 2, 3], 0⟩ 2).2.pos ≤ (⟨[1, 2, 3], 0⟩ : Cursor).data.length ∧
    (Cursor.advance ⟨[1, 2, 3], 0⟩ 2).2.pos ≤ (⟨[1, 2, 3], 0⟩ : Cursor).data.length :=
  C7_cursor_contract ⟨[1, 2, 3], 0⟩ 2 (by decide)

theorem serializeSections_length (items : List (Nat × List Nat)) :
    items.length ≤ (serializeSections items).length := by
  induction items with
  | nil => simp [serializeSections]
  | cons item rest ih =>
    obtain ⟨id, body⟩ := item
    have : serializeSections ((id, body) :: rest)
        = sectionBytes (id, body) ++ serializeSections rest := rfl
    rw [this]
    simp only [List.length_append, List.length_cons, sectionBytes]
    omega

/-- `Module::decode` on a preamble followed by a well-formed section stream. -/
theorem decode_serialized (items : List (Nat × List Nat))
    (hchain : chainOk none items = true) :
    Module.decode (WASM_MAGIC ++ WASM_VERSION ++ serializeSections items)
      = .ok ⟨expectedSections 8 items⟩ := by
  have hpre : parse_preamble (Cursor.new (WASM_MAGIC ++ WASM_VERSION ++ serializeSections items))
      = (.ok (), ⟨WASM_MAGIC ++ WASM_VERSION ++ serializeSections items, 8⟩) := by
    have h0 := parse_preamble_version 0x01 0x00 0x00 0x00 (serializeSections items)
    rw [show ([0x01, 0x00, 0x00, 0x00] : List Nat) = WASM_VERSION from rfl] at h0
    rw [if_pos rfl] at h0
    exact h0
  rw [Module.decode]
  rw [hpre]
  dsimp only
  have hlen : (WASM_MAGIC ++ WASM_VERSION ++ serializeSections items).length
      = 8 + (serializeSections items).length := by
    simp [WASM_MAGIC, WASM_VERSION]
    omega
  have hdrop : (WASM_MAGIC ++ WASM_VERSION ++ serializeSections items).drop 8
      = serializeSections items := by
    rw [List.append_assoc]
    have : (WASM_MAGIC ++ (WASM_VERSION ++ serializeSections items)).drop 8
        = ((WASM_MAGIC ++ WASM_VERSION) ++ serializeSections items).drop
            (WASM_MAGIC ++ WASM_VERSION).length := by
      simp [WASM_MAGIC, WASM_VERSION]
    rw [this, List.drop_left]
  rw [parse_sections]
  dsimp only
  rw [parseSectionsLoop_serialize items _ none [] _ 8 hdrop (by omega)
    hchain (by
      have := serializeSections_length items
      omega)]
  simp

/-- C2: in `parse_sections`, a non-custom id equal to the last accepted
non-custom id fails with `DuplicateSection` and a smaller one fails with
`SectionOutOfOrder`, both at the section-header offset; custom sections
are exempt and never update the tracker, so any stream whose non-custom
ids are strictly increasing, arbitrarily interleaved with custom
sections, decodes to its sections in file order. -/
theorem C2_section_ordering :
    (∀ (items : List (Nat × List Nat)), chainOk none items = true →
      Module.decode (WASM_MAGIC ++ WASM_VERSION ++ serializeSections items)
        = .ok ⟨expectedSections 8 items⟩) ∧
    (∀ (fuel prev : Nat) (acc : List RawSection) (data : List Nat) (pos idByte n : Nat)
       (tail : List Nat) (sid : SectionId),
      data.drop pos = idByte :: (encodeU n ++ tail) →
      n < 2 ^ 32 → n ≤ tail.length →
      SectionId.from_byte idByte = some sid → sid ≠ SectionId.custom →
      (idByte = prev →
        parseSectionsLoop (fuel + 1) (some prev) acc ⟨data, pos⟩
          = (.error ⟨pos, .SectionHeader, .DuplicateSection idByte⟩,
             ⟨data, pos + 1 + (encodeU n).length⟩)) ∧
      (idByte < prev →
        parseSectionsLoop (fuel + 1) (some prev) acc ⟨data, pos⟩
          = (.error ⟨pos, .SectionHeader, .SectionOutOfOrder prev idByte⟩,
             ⟨data, pos + 1 + (encodeU n).length⟩))) :=
  ⟨fun items hchain => decode_serialized items hchain,
   fun fuel prev acc data pos idByte n tail sid hdrop hn hb hsid hnc =>
    parseSectionsLoop_ordering_error fuel prev acc data pos idByte n tail sid
      hdrop hn hb hsid hnc⟩

/-- Witness for C2: a custom section interleaved between type and function
sections decodes in file order, and a duplicate type-section header fails
with `DuplicateSection`. -/
theorem C2_witness :
    Module.decode (WASM_MAGIC ++ WASM_VERSION
        ++ serializeSections [(1, [0xAA]), (0, [0xBB]), (3, [0xCC])])
      = .ok ⟨expectedSections 8 [(1, [0xAA]), (0, [0xBB]), (3, [0xCC])]⟩ ∧
    parseSectionsLoop (3 + 1) (some 1) [] ⟨[0x01, 0x01, 0xEE], 0⟩
      = (.error ⟨0, .SectionHeader, .DuplicateSection 1⟩,
         ⟨[0x01, 0x01, 0xEE], 0 + 1 + (encodeU 1).length⟩) :=
  ⟨C2_section_ordering.1 [(1, [0xAA]), (0, [0xBB]), (3, [0xCC])] (by decide),
   (C2_section_ordering.2 3 1 [] [0x01, 0x01, 0xEE] 0 1 1 [0xEE] SectionId.type'
      (by simp [encodeU]) (by norm_num) (by norm_num) rfl (by decide)).1 rfl⟩

/-- Errors out of the preamble validator carry the magic or version context. -/
theorem parse_preamble_error_context (c : Cursor) (e : DecodeError) (c' : Cursor)
    (h : parse_preamble c = (.error e, c')) :
    e.context = .Magic ∨ e.context = .Version := by
  rw [parse_preamble] at h
  rcases h1 : Cursor.read_bytes c 4 with ⟨r1, c1⟩
  rw [h1] at h
  cases r1 with
  | error e1 =>
    simp only [Prod.mk.injEq, Except.error.injEq] at h
    rw [← h.1]
    exact Or.inl rfl
  | ok magic =>
    dsimp only at h
    split at h
    · simp only [Prod.mk.injEq, Except.error.injEq] at h
      rw [← h.1]
      exact Or.inl rfl
    · rcases h2 : Cursor.read_bytes c1 4 with ⟨r2, c2⟩
      rw [h2] at h
      cases r2 with
      | error e2 =>
        simp only [Prod.mk.injEq, Except.error.injEq] at h
        rw [← h.1]
        exact Or.inr rfl
      | ok version =>
        dsimp only at h
        split at h
        · simp only [Prod.mk.injEq, Except.error.injEq] at h
          rw [← h.1]
          exact Or.inr rfl
        · simp at h

/-- C8: a codec failure while decoding a section's declared content length
reaches the caller with its context re-tagged to the section-header
context while its offset and kind are exactly those the codec produced;
the codec's own byte-read retag likewise preserves the kind, and
`Module::decode` propagates scanner errors unchanged. -/
theorem C8_retag_preserves_offset_and_kind :
    (∀ (fuel : Nat) (last : Option Nat) (acc : List RawSection) (data : List Nat)
       (pos idByte : Nat) (tail : List Nat) (sid : SectionId) (e : DecodeError)
       (c' : Cursor),
      data.drop pos = idByte :: tail →
      SectionId.from_byte idByte = some sid →
      decode_u32 ⟨data, pos + 1⟩ = (.error e, c') →
      parseSectionsLoop (fuel + 1) last acc ⟨data, pos⟩
        = (.error ⟨e.offset, .SectionHeader, e.kind⟩, c')) ∧
    (∀ (width lastMask start fuel result shift : Nat) (c c' : Cursor) (e : DecodeError),
      Cursor.read_byte c = (.error e, c') →
      decodeULoop width lastMask start (fuel + 1) result shift c
        = (.error ⟨start, .Leb128, e.kind⟩, c')) ∧
    (∀ (bytes : List Nat) (c1 : Cursor) (e : DecodeError) (c' : Cursor),
      parse_preamble (Cursor.new bytes) = (.ok (), c1) →
      parse_sections c1 = (.error e, c') →
      Module.decode bytes = .error e) := by
  refine ⟨?_, ?_, ?_⟩
  · intro fuel last acc data pos idByte tail sid e c' hdrop hsid hdec
    exact parseSectionsLoop_codec_retag fuel last acc data pos idByte tail sid e c'
      hdrop hsid hdec
  · intro width lastMask start fuel result shift c c' e hrb
    exact decodeULoop_read_retag width lastMask start fuel result shift c c' e hrb
  · intro bytes c1 e c' hpre hsec
    rw [Module.decode]
    rw [hpre]
    dsimp only
    rw [hsec]

/-- Witness for C8: a type-section header with a truncated LEB128 length
field; the codec's `UnexpectedEof` reaches the top re-tagged with the
section-header context, offset and kind intact. -/
theorem C8_witness :
    parseSectionsLoop (1 + 1) none [] ⟨[0x01, 0x80], 0⟩
      = (.error ⟨(⟨1, DecodeContext.Leb128, DecodeErrorKind.UnexpectedEof⟩ : DecodeError).offset,
          .SectionHeader,
          (⟨1, DecodeContext.Leb128, DecodeErrorKind.UnexpectedEof⟩ : DecodeError).kind⟩,
         ⟨[0x01, 0x80], 2⟩) :=
  C8_retag_preserves_offset_and_kind.1 1 none [] [0x01, 0x80] 0 0x01 [0x80]
    SectionId.type' ⟨1, .Leb128, .UnexpectedEof⟩ ⟨[0x01, 0x80], 2⟩ rfl rfl rfl

/-- C9: no error returned by `Module::decode` ever carries the
section-body context: the header-time bounds check makes the body-slice
failure branch unreachable. -/
theorem C9_no_section_body_error (bytes : List Nat) (e : DecodeError)
    (h : Module.decode bytes = .error e) :
    ∀ id, e.context ≠ DecodeContext.SectionBody id := by
  intro id hctx
  rw [Module.decode] at h
  rcases hpre : parse_preamble (Cursor.new bytes) with ⟨r1, c1⟩
  rw [hpre] at h
  cases r1 with
  | error e1 =>
    dsimp only at h
    cases h
    rcases parse_preamble_error_context _ _ _ hpre with h1 | h1 <;>
      rw [h1] at hctx <;> exact DecodeContext.noConfusion hctx
  | ok u =>
    dsimp only at h
    rcases hsec : parse_sections c1 with ⟨r2, c2⟩
    rw [hsec] at h
    cases r2 with
    | error e2 =>
      cases h
      obtain ⟨hc1, hlen8⟩ := parse_preamble_ok_shape bytes c1 hpre
      rw [parse_sections] at hsec
      have := parseSectionsLoop_error_context _ _ _ _ _ _ (by rw [hc1]; exact hlen8) hsec
      rw [this] at hctx
      exact DecodeContext.noConfusion hctx
    | ok secs =>
      simp at h

/-- Witness for C9: the empty buffer fails in the magic context, which is
not a section-body context. -/
theorem C9_witness :
    Module.decode [] = .error ⟨0, .Magic, .UnexpectedEof⟩ ∧
    (⟨0, DecodeContext.Magic, DecodeErrorKind.UnexpectedEof⟩ : DecodeError).context
      ≠ DecodeContext.SectionBody 1 :=
  ⟨rfl, C9_no_section_body_error [] ⟨0, .Magic, .UnexpectedEof⟩ rfl 1⟩

/-- C10: every section of a successfully decoded module records the exact
position in the original buffer where its content begins: its offset is at
least 8, its content lies within the buffer, and its data equals the
corresponding subrange of the buffer. -/
theorem C10_sections_are_buffer_slices (bytes : List Nat) (m : Module)
    (h : Module.decode bytes = .ok m) :
    ∀ s ∈ m.sections, 8 ≤ s.offset ∧ s.offset + s.data.length ≤ bytes.length ∧
      s.data = (bytes.drop s.offset).take s.data.length := by
  rw [Module.decode] at h
  rcases hpre : parse_preamble (Cursor.new bytes) with ⟨r1, c1⟩
  rw [hpre] at h
  cases r1 with
  | error e1 => simp at h
  | ok u =>
    dsimp only at h
    rcases hsec : parse_sections c1 with ⟨r2, c2⟩
    rw [hsec] at h
    cases r2 with
    | error e2 => simp at h
    | ok secs =>
      simp only [Prod.mk.injEq, Except.ok.injEq] at h
      obtain ⟨hc1, hlen8⟩ := parse_preamble_ok_shape bytes c1 hpre
      subst hc1
      rw [parse_sections] at hsec
      have hall := parseSectionsLoop_sections _ _ _ _ _ _
        (by dsimp only; omega) hsec
      intro s hs
      rw [← h] at hs
      dsimp only at hs
      rcases hall s hs with hmem | hnew
      · exact absurd hmem (List.not_mem_nil s)
      · dsimp only at hnew
        exact ⟨hnew.1, hnew.2.1, hnew.2.2⟩

/-- Witness for C10 on a module with one two-byte type section. -/
theorem C10_witness :
    8 ≤ (⟨SectionId.type', 10, [0xAA, 0xBB]⟩ : RawSection).offset ∧
    (⟨SectionId.type', 10, [0xAA, 0xBB]⟩ : RawSection).offset
        + (⟨SectionId.type', 10, [0xAA, 0xBB]⟩ : RawSection).data.length
      ≤ ([0x00, 0x61, 0x73, 0x6D, 0x01, 0x00, 0x00, 0x00,
          0x01, 0x02, 0xAA, 0xBB] : List Nat).length ∧
    (⟨SectionId.type', 10, [0xAA, 0xBB]⟩ : RawSection).data
      = (([0x00, 0x61, 0x73, 0x6D, 0x01, 0x00, 0x00, 0x00,
           0x01, 0x02, 0xAA, 0xBB] : List Nat).drop
          (⟨SectionId.type', 10, [0xAA, 0xBB]⟩ : RawSection).offset).take
          (⟨SectionId.type', 10, [0xAA, 0xBB]⟩ : RawSection).data.length :=
  C10_sections_are_buffer_slices
    [0x00, 0x61, 0x73, 0x6D, 0x01, 0x00, 0x00, 0x00, 0x01, 0x02, 0xAA, 0xBB]
    ⟨[⟨SectionId.type', 10, [0xAA, 0xBB]⟩]⟩ rfl
    ⟨SectionId.type', 10, [0xAA, 0xBB]⟩ (by decide)

end Baedeker
